import Mathlib

/-!
# MaxScale worker runtime: running averages, load tracker, disposable tasks

A shallow embedding of

* `WorkerLoad::Average`, `WorkerLoad::Average1`, `WorkerLoad::AverageN<N>`,
  `WorkerLoad::percentage`, `WorkerLoad::about_to_wait` and
  `WorkerLoad::start_time` from `server/core/internal/worker.hh`,
* `WorkerDisposableTask` from `server/core/workertask.cc`,

together with the properties established about them.  `WorkerLoad::WorkerLoad()`,
`WorkerLoad::about_to_work` and `atomic_add` are declared or used in these files
and defined elsewhere; they are modelled from the specification and marked so.

Conventions of the embedding:

* `uint32_t` fields are natural numbers kept below `2^32 = 4294967296`; every
  `+=`, `-=` and `++` on them is reduced modulo `2^32` explicitly.
* a `uint8_t` value is a natural number below `256`; where the source narrows a
  `uint32_t` to `uint8_t` the embedding reduces modulo `256`.
* the pointer `m_i` into the buffer `m_begin[N]` is the offset `m_i - m_begin`;
  `m_end` is the offset `N`.
* a buffer cell is `none` until the first assignment to it (the constructor
  leaves `m_begin` uninitialised) and `some v` afterwards.
* an `Average*` is a value of `Average`; the null pointer is `Average.null`, so a
  node together with the chain of its dependants is one value.
* `m_sum / m_nValues` is undefined for a zero divisor: the call traps there.
  `add_value` and `update_value` are total functions that give the state and the
  result of a call that runs to completion; whether a call does is decided by
  `add_value_defined` and `update_value_defined`, and `try_add_value`,
  `try_update_value` and `try_calls` return `none` for a call that traps.  Where
  a call traps the values of the total functions have no meaning.
* the `ss_dassert` lines of `prev` and `next` do not change the state and are left
  out of the two functions.
* a method that changes the object returns the object afterwards; `add_value`
  returns it together with the `bool` of the source.
-/

namespace maxscale

/-! ## Machine arithmetic -/

/-- Addition of `uint32_t` values: `a += b`. -/
def add32 (a b : Nat) : Nat := (a + b) % 4294967296

/-- Subtraction of `uint32_t` values: `a -= b`. -/
def sub32 (a b : Nat) : Nat := (a + 4294967296 - b % 4294967296) % 4294967296

/-- Narrowing conversion of an unsigned value to `uint8_t`. -/
def to_uint8 (x : Nat) : Nat := x % 256

/-! ## `WorkerLoad::AverageN<N>`: the fields of one node -/

/-- The data members of `AverageN<N>` together with the inherited `m_value`
(worker.hh 409-415, 240).  `N` is the template argument. -/
structure AverageN where
  /-- Template argument: the capacity of the buffer. -/
  N : Nat
  /-- Buffer `uint8_t m_begin[N]`; `none` is a cell that was never assigned. -/
  m_begin : List (Option Nat)
  /-- Current position in the buffer, as an offset from `m_begin`. -/
  m_i : Nat
  /-- Sum of all values in the buffer (`uint32_t`). -/
  m_sum : Nat
  /-- How many values the buffer contains (`uint32_t`). -/
  m_nValues : Nat
  /-- The current average value (`uint32_t`, member of the base class). -/
  m_value : Nat
deriving DecidableEq

namespace AverageN

/-- Constructor `AverageN(Average* pDependant)` (worker.hh 291-298): the buffer
is left uninitialised, `m_i = m_begin`, `m_sum = 0`, `m_nValues = 0` and the base
class sets `m_value = 0`. -/
def init (N : Nat) : AverageN :=
  { N := N, m_begin := List.replicate N none, m_i := 0, m_sum := 0, m_nValues := 0,
    m_value := 0 }

/-- Reading `*p` for a pointer `p` into the buffer.  A cell that was never
assigned (or lies outside the buffer) has no defined content; it reads as `0`. -/
def deref (a : AverageN) (p : Nat) : Nat :=
  (a.m_begin[p]?.getD none).getD 0

/-- Method `prev` (worker.hh 370-389). -/
def prev (a : AverageN) (p : Nat) : Nat :=
  if p > 0 then p - 1 else a.N - 1

/-- Method `next` (worker.hh 391-407). -/
def next (a : AverageN) (p : Nat) : Nat :=
  let p := p + 1
  if p = a.N then 0 else p

/-- The part of `AverageN::add_value` that works on the node itself
(worker.hh 302-321): evict or count, store, advance, recompute the mean.  The
division of line 319 traps when the new `m_nValues` is 0; the result is the state
of the node after a call in which it is not. -/
def add_value (a : AverageN) (value : Nat) : AverageN :=
  let a1 : AverageN :=
    if a.m_nValues = a.N then
      { a with m_sum := sub32 a.m_sum (a.deref a.m_i) }
    else
      { a with m_nValues := (a.m_nValues + 1) % 4294967296 }
  let a2 : AverageN := { a1 with m_begin := a1.m_begin.set a1.m_i (some value) }
  let a3 : AverageN := { a2 with m_sum := add32 a2.m_sum (a2.deref a2.m_i) }
  let a4 : AverageN := { a3 with m_i := a3.next a3.m_i }
  let average := a4.m_sum / a4.m_nValues
  { a4 with m_value := average }

/-- The `else` branch of `AverageN::update_value` that works on the node itself
(worker.hh 352-360): replace the most recent value and recompute the mean.  The
branch is taken with `m_nValues` not 0, which is the divisor of line 358. -/
def update_value (a : AverageN) (value : Nat) : AverageN :=
  let p := a.prev a.m_i
  let a1 : AverageN := { a with m_sum := sub32 a.m_sum (a.deref p) }
  let a2 : AverageN := { a1 with m_begin := a1.m_begin.set p (some value) }
  let a3 : AverageN := { a2 with m_sum := add32 a2.m_sum (a2.deref p) }
  let average := a3.m_sum / a3.m_nValues
  { a3 with m_value := average }

end AverageN

/-! ## `WorkerLoad::Average`: a node with its chain of dependants -/

/-- An `Average*`: the null pointer, an `Average1` or an `AverageN<N>`, each with
its `m_pDependant`. -/
inductive Average where
  /-- The null pointer (no dependant). -/
  | null : Average
  /-- An `Average1`: its `m_value` and its dependant. -/
  | average1 (m_value : Nat) (m_pDependant : Average) : Average
  /-- An `AverageN<N>`: its fields and its dependant. -/
  | averageN (self : AverageN) (m_pDependant : Average) : Average
deriving DecidableEq

namespace Average

/-- Number of nodes on the dependant chain. -/
def depth : Average → Nat
  | null => 0
  | average1 _ d => d.depth + 1
  | averageN _ d => d.depth + 1

/-- The field `m_value` of the node pointed to. -/
def m_value : Average → Nat
  | null => 0
  | average1 v _ => v
  | averageN a _ => a.m_value

/-- The field `m_pDependant` of the node pointed to. -/
def m_pDependant : Average → Average
  | null => null
  | average1 _ d => d
  | averageN _ d => d

/-- Method `Average::value` (worker.hh 233-236): the 32-bit `m_value` returned as
`uint8_t`. -/
def value (t : Average) : Nat := to_uint8 t.m_value

mutual

/-- Methods `Average1::add_value` (worker.hh 260-271) and `AverageN::add_value`
(worker.hh 300-339).  Returns the state afterwards and the returned `bool` of a
call that runs to completion (see `add_value_defined`).  On `null` nothing
happens: the calls on a dependant are guarded by `if (m_pDependant)`. -/
def add_value : Average → Nat → Average × Bool
  | null, _ => (null, false)
  | average1 _ dep, value =>
    (average1 value (add_value dep value).1, true)
  | averageN a dep, value =>
    let a' := a.add_value value
    let average := a'.m_value
    if a'.m_i = 0 then
      (averageN a' (add_value dep (to_uint8 average)).1, true)
    else
      (averageN a' (update_value dep (to_uint8 average)), false)
termination_by t _ => 2 * t.depth
decreasing_by all_goals (simp_wf; simp only [depth]; omega)

/-- Methods `Average1::update_value` (worker.hh 273-281) and
`AverageN::update_value` (worker.hh 341-367). -/
def update_value : Average → Nat → Average
  | null, _ => null
  | average1 _ dep, value =>
    average1 value (update_value dep value)
  | averageN a dep, value =>
    if a.m_nValues = 0 then
      (add_value (averageN a dep) value).1
    else
      let a' := a.update_value value
      averageN a' (update_value dep (to_uint8 a'.m_value))
termination_by t _ => 2 * t.depth + 1
decreasing_by all_goals (simp_wf <;> simp only [depth] <;> omega)

end

/-- The fields of the `AverageN<N>` pointed to (a node of capacity 0 for any
other pointer). -/
def self : Average → AverageN
  | averageN a _ => a
  | _ => AverageN.init 0

/-- A call of one of the two virtual methods of `Average`. -/
inductive Call where
  /-- The call `add_value(value)`. -/
  | add_value (value : Nat) : Call
  /-- The call `update_value(value)`. -/
  | update_value (value : Nat) : Call
deriving DecidableEq

/-- The 8-bit argument of a call. -/
def Call.arg : Call → Nat
  | Call.add_value v => v
  | Call.update_value v => v

/-- The state after one call on the node. -/
def call (t : Average) : Call → Average
  | Call.add_value v => (t.add_value v).1
  | Call.update_value v => t.update_value v

/-- The state after a sequence of calls on the node, first call first. -/
def calls (t : Average) (cs : List Call) : Average := cs.foldl call t

/-- The state after `add_value(v1)`, ..., `add_value(vk)` on the node. -/
def add_values (t : Average) (vs : List Nat) : Average :=
  vs.foldl (fun s v => (s.add_value v).1) t

end Average

namespace AverageN

/-- The sum of the samples stored in the buffer (a cell that was never assigned
holds no sample). -/
def stored_sum (a : AverageN) : Nat := (a.m_begin.map (fun c => c.getD 0)).sum

end AverageN

/-! ## Specification vocabulary for the running averages -/

/-- The last `N` elements of a sequence (all of it when it is shorter). -/
def window (N : Nat) (vs : List Nat) : List Nat := vs.drop (vs.length - N)

namespace AverageN

/-- The node `a` represents the sequence of samples `vs` (oldest first, the most
recent one last): the cursor and the count follow the length of `vs`, the cells
hold the last `N` samples at their positions modulo `N`, and the running sum and
the mean are those of the window, the sum being kept modulo `2^32`. -/
structure Abs (a : AverageN) (vs : List Nat) : Prop where
  /-- The capacity is positive. -/
  pos : 1 ≤ a.N
  /-- The capacity is below `2^32`, so the 32-bit count can reach it. -/
  cap : a.N < 4294967296
  /-- The buffer has `N` cells. -/
  len : a.m_begin.length = a.N
  /-- Every sample is an 8-bit value. -/
  byte : ∀ x ∈ vs, x < 256
  /-- The cursor is the number of samples modulo `N`. -/
  cur : a.m_i = vs.length % a.N
  /-- The count is the number of samples, capped at `N`. -/
  cnt : a.m_nValues = min vs.length a.N
  /-- Cell `t % N` holds sample `t` for each of the last `N` indices `t`; a cell
  not reached yet is unassigned. -/
  cells : ∀ t, vs.length ≤ t + a.N → (t < vs.length ∨ t < a.N) →
    a.m_begin[t % a.N]? = some (vs[t]?)
  /-- The running sum is the sum of the window modulo `2^32`. -/
  sum : a.m_sum = (window a.N vs).sum % 4294967296
  /-- The stored samples add up to the sum of the window. -/
  stored : a.stored_sum = (window a.N vs).sum
  /-- The mean is the quotient of the running sum by the count. -/
  mean : a.m_value = a.m_sum / a.m_nValues

end AverageN

namespace Average

/-- Every value held anywhere on the chain is at most `B`: an `Average1` holds a
value of at most `B`, an `AverageN<N>` represents a sequence of samples of at
most `B`. -/
def Bounded (B : Nat) : Average → Prop
  | null => True
  | average1 v d => v ≤ B ∧ Bounded B d
  | averageN a d =>
    (∃ vs, (∀ x ∈ vs, x ≤ B) ∧ a.Abs vs) ∧ Bounded B d

end Average

/-! ## `WorkerLoad` -/

/-- Enumerator `WorkerLoad::ONE_SECOND` of `counter_t`. -/
def ONE_SECOND : Nat := 1000

/-- Enumerator `WorkerLoad::ONE_MINUTE` of `counter_t`. -/
def ONE_MINUTE : Nat := 60 * ONE_SECOND

/-- Enumerator `WorkerLoad::ONE_HOUR` of `counter_t`. -/
def ONE_HOUR : Nat := 60 * ONE_MINUTE

/-- Enumerator `WorkerLoad::GRANULARITY`. -/
def GRANULARITY : Nat := ONE_SECOND

/-- The data members of `WorkerLoad` (worker.hh 417-422).  The three averages
are linked through `m_pDependant`, so the member `m_load_1_second` carries the
chain second, minute, hour; see `WorkerLoad.m_load_1_minute` and
`WorkerLoad.m_load_1_hour`. -/
structure WorkerLoad where
  /-- When was the current 1-second period started (`uint64_t`). -/
  m_start_time : Nat
  /-- The time when the worker entered epoll_wait() (`uint64_t`). -/
  m_wait_start : Nat
  /-- How much time the worker has spent in epoll_wait() (`uint64_t`). -/
  m_wait_time : Nat
  /-- The load during the last 1-second period, with its dependants. -/
  m_load_1_second : Average
deriving DecidableEq

namespace WorkerLoad

/-- The member `m_load_1_minute`: the dependant of `m_load_1_second`. -/
def m_load_1_minute (w : WorkerLoad) : Average := w.m_load_1_second.m_pDependant

/-- The member `m_load_1_hour`: the dependant of `m_load_1_minute`. -/
def m_load_1_hour (w : WorkerLoad) : Average := w.m_load_1_minute.m_pDependant

/-- Modelled from the spec: the three averages as the constructor
`WorkerLoad::WorkerLoad()` links them.  The constructor is declared at worker.hh
95 and defined outside the given sources; the members have the types
`Average1`, `AverageN<60>`, `AverageN<60>` (worker.hh 420-422) and the spec
(4.3) gives "a three-level average tree (Windowed(60) → Windowed(60) → Singleton
representing hour → minute → second)", the Singleton being fed and cascading up
the tree. -/
def fresh_tree : Average :=
  Average.average1 0
    (Average.averageN (AverageN.init 60) (Average.averageN (AverageN.init 60) Average.null))

/-- Modelled from the spec: the constructor `WorkerLoad::WorkerLoad()` (declared
at worker.hh 95, defined outside the given sources): all times zero and the
three averages empty and linked as in `fresh_tree`. -/
def init : WorkerLoad :=
  { m_start_time := 0, m_wait_start := 0, m_wait_time := 0, m_load_1_second := fresh_tree }

/-- Method `WorkerLoad::percentage` (worker.hh 142-159). -/
def percentage (w : WorkerLoad) (counter : Nat) : Nat :=
  if counter = ONE_SECOND then w.m_load_1_second.value
  else if counter = ONE_MINUTE then w.m_load_1_minute.value
  else if counter = ONE_HOUR then w.m_load_1_hour.value
  else 0

/-- The call `m_load_1_second.add_value(value)` on the tracker. -/
def add_load (w : WorkerLoad) (value : Nat) : WorkerLoad :=
  { w with m_load_1_second := (w.m_load_1_second.add_value value).1 }

/-- A sequence of calls `m_load_1_second.add_value(value)` on the tracker. -/
def add_loads (w : WorkerLoad) (vs : List Nat) : WorkerLoad := vs.foldl add_load w

end WorkerLoad

/-! ## `WorkerLoad::about_to_work` -/

/-- Addition of `uint64_t` values. -/
def add64 (a b : Nat) : Nat := (a + b) % 18446744073709551616

/-- Subtraction of `uint64_t` values. -/
def sub64 (a b : Nat) : Nat :=
  (a + 18446744073709551616 - b % 18446744073709551616) % 18446744073709551616

/-- Clamping of an integer to the range `[0, 100]`. -/
def clamp_percentage (x : Int) : Nat := (max 0 (min 100 x)).toNat

namespace WorkerLoad

/-- Modelled from the spec: the method `WorkerLoad::about_to_work(uint64_t now)`,
which worker.hh (125-130) only declares; its definition is outside the given
sources.  Spec 4.3: "`about_to_work(now)` closes the wait interval.  When
`now − period_start_ms ≥ 1000 ms`, the load for the completed period is computed
as `100 · (elapsed − wait) / elapsed` (clamped to `[0,100]`), appended to the
Singleton (which cascades up the tree), and `period_start_ms` advances to `now`
with `wait_time_ms` reset."  Closing the wait interval adds `now - m_wait_start`
to `m_wait_time`. -/
def about_to_work (w : WorkerLoad) (now : Nat) : WorkerLoad :=
  let wait := add64 w.m_wait_time (sub64 now w.m_wait_start)
  let elapsed := sub64 now w.m_start_time
  if elapsed ≥ GRANULARITY then
    let load := clamp_percentage (100 * ((elapsed : Int) - (wait : Int)) / (elapsed : Int))
    { w with
      m_start_time := now
      m_wait_time := 0
      m_load_1_second := (w.m_load_1_second.add_value load).1 }
  else
    { w with m_wait_time := wait }

end WorkerLoad

/-! ## `WorkerDisposableTask` -/

/-- Reduction of an integer to the range of `int32_t` (two's complement). -/
def wrap_int32 (x : Int) : Int := (x + 2147483648) % 4294967296 - 2147483648

/-- Modelled from the spec: `atomic_add(int* variable, int value)` of
maxscale/atomic.h, a header that is not among the given sources.  It adds `value`
to `*variable` and returns the value `*variable` had before: with this reading
`dec_count` destroys the task when "its reference count transitions to zero"
(spec 3) and "falls to zero" (spec 4.6).  Here `content` is `*variable` before
the call; the result is the pair of the new content of `*variable` and the
returned value. -/
def atomic_add (content value : Int) : Int × Int :=
  (wrap_int32 (content + value), content)

/-- The data member of `WorkerDisposableTask` (workertask.hh 62) and a counter of
the executions of `delete this`. -/
structure WorkerDisposableTask where
  /-- The reference count (`int32_t`). -/
  m_count : Int
  /-- How many times `delete this` has been executed on the task. -/
  deleted : Nat
deriving DecidableEq

namespace WorkerDisposableTask

/-- Constructor `WorkerDisposableTask::WorkerDisposableTask()` (workertask.cc
30-33). -/
def init : WorkerDisposableTask := { m_count := 0, deleted := 0 }

/-- Method `WorkerDisposableTask::inc_count` (workertask.cc 35-38). -/
def inc_count (t : WorkerDisposableTask) : WorkerDisposableTask :=
  { t with m_count := (atomic_add t.m_count 1).1 }

/-- Method `WorkerDisposableTask::dec_count` (workertask.cc 40-46). -/
def dec_count (t : WorkerDisposableTask) : WorkerDisposableTask :=
  if (atomic_add t.m_count (-1)).2 = 1 then
    { m_count := (atomic_add t.m_count (-1)).1, deleted := t.deleted + 1 }
  else
    { t with m_count := (atomic_add t.m_count (-1)).1 }

/-- A call of one of the two counting methods. -/
inductive Call where
  /-- The call `inc_count()`. -/
  | inc_count : Call
  /-- The call `dec_count()`. -/
  | dec_count : Call
deriving DecidableEq

/-- The task after one call. -/
def call (t : WorkerDisposableTask) : Call → WorkerDisposableTask
  | Call.inc_count => t.inc_count
  | Call.dec_count => t.dec_count

/-- The task after a sequence of calls, first call first. -/
def calls (t : WorkerDisposableTask) (cs : List Call) : WorkerDisposableTask :=
  cs.foldl call t

end WorkerDisposableTask

/-! ## `WorkerLoad::about_to_wait` and `WorkerLoad::start_time` -/

namespace WorkerLoad

/-- Method `WorkerLoad::about_to_wait(uint64_t now)` (worker.hh 115-118). -/
def about_to_wait (w : WorkerLoad) (now : Nat) : WorkerLoad :=
  { w with m_wait_start := now }

/-- Method `WorkerLoad::start_time` (worker.hh 166-169). -/
def start_time (w : WorkerLoad) : Nat := w.m_start_time

end WorkerLoad

/-! ## What the body of `AverageN<N>` relies on -/

namespace AverageN

/-- The cell at offset `p` has been assigned by an earlier call. -/
def written (a : AverageN) (p : Nat) : Bool := (a.m_begin[p]?.getD none).isSome

/-- The samples stored in the buffer, in the order of the cells. -/
def stored (a : AverageN) : List Nat := a.m_begin.filterMap id

/-- The minimum of the stored samples (samples are 8-bit values, so the fold
starts from 255). -/
def min_stored (a : AverageN) : Nat := a.stored.foldl min 255

/-- The maximum of the stored samples. -/
def max_stored (a : AverageN) : Nat := a.stored.foldl max 0

/-- Everything a call of `add_value(value)` relies on in the state `a`
(worker.hh 300-339, 391-407): when the buffer is full, the cell read by
`m_sum -= *m_i` has been assigned; the `ss_dassert` lines of `next` hold for its
argument `m_i` and for its result, both being inside `[m_begin, m_end)`; and the
divisor `m_nValues` of `m_sum / m_nValues` is not zero. -/
def add_value_safe (a : AverageN) (value : Nat) : Prop :=
  (a.m_nValues = a.N → a.written a.m_i = true) ∧
  a.m_i < a.N ∧
  a.next a.m_i < a.N ∧
  (a.add_value value).m_nValues ≠ 0

/-- Everything a call of `update_value(value)` relies on in the state `a`
(worker.hh 341-367, 370-389): with no values yet it is what `add_value` relies
on; otherwise the `ss_dassert` lines of `prev` hold for its argument `m_i` and
for its result, the cell read by `m_sum -= *p` has been assigned, and the divisor
`m_nValues` is not zero. -/
def update_value_safe (a : AverageN) (value : Nat) : Prop :=
  if a.m_nValues = 0 then a.add_value_safe value
  else
    a.m_i < a.N ∧
    a.prev a.m_i < a.N ∧
    a.written (a.prev a.m_i) = true ∧
    (a.update_value value).m_nValues ≠ 0

end AverageN

namespace Average

/-- A chain of freshly constructed averages: every `Average1` holds 0 and every
`AverageN<N>` is as its constructor leaves it, with `1 ≤ N < 2^32`. -/
def Fresh : Average → Prop
  | null => True
  | average1 v d => v = 0 ∧ Fresh d
  | averageN a d => (∃ N, 1 ≤ N ∧ N < 4294967296 ∧ a = AverageN.init N) ∧ Fresh d

end Average

/-! ## Specification vocabulary for the three-level tree of the tracker -/

namespace WorkerLoad

/-- The tree `t` is the three-level tree of the tracker after the loads `ms`: an
`Average1` over a minute node of capacity 60 that represents `ms`, over an hour
node of capacity 60 that represents a sequence `hs` of `ms.length / 60 + 1`
means (none when `ms` is empty) whose last element is the value of the minute
node. -/
def Levels (t : Average) (ms : List Nat) : Prop :=
  ∃ x m h hs,
    t = Average.average1 x (Average.averageN m (Average.averageN h Average.null)) ∧
    m.Abs ms ∧ m.N = 60 ∧ h.Abs hs ∧ h.N = 60 ∧
    hs.length = (if ms.length = 0 then 0 else ms.length / 60 + 1) ∧
    (1 ≤ ms.length → hs.getLast? = some (to_uint8 m.m_value))

end WorkerLoad

/-! ## Calls that run to completion

`m_sum / m_nValues` (worker.hh 319 and 358) is undefined for a zero divisor: the
call traps there and returns nothing.  `add_value` and `update_value` above give
the state a call leaves when it runs to completion; `add_value_defined` and
`update_value_defined` say whether it does, and `try_add_value`,
`try_update_value` and `try_calls` are the calls as fallible functions. -/

namespace Average

mutual

/-- The call `add_value(value)` runs to completion: every division
`m_sum / m_nValues` it executes, in the node itself (worker.hh 319) and in the
calls it makes on its dependants, has a divisor that is not zero.  The dependant
is called only after the division of the node. -/
def add_value_defined : Average → Nat → Bool
  | null, _ => true
  | average1 _ dep, value => add_value_defined dep value
  | averageN a dep, value =>
    let a' := a.add_value value
    decide (a'.m_nValues ≠ 0) &&
      (if a'.m_i = 0 then add_value_defined dep (to_uint8 a'.m_value)
       else update_value_defined dep (to_uint8 a'.m_value))
termination_by t _ => 2 * t.depth
decreasing_by all_goals (simp_wf; simp only [depth]; omega)

/-- The call `update_value(value)` runs to completion.  In the `else` branch
of `AverageN::update_value` (worker.hh 352-365) the divisor is the unchanged
`m_nValues`, which is not zero there. -/
def update_value_defined : Average → Nat → Bool
  | null, _ => true
  | average1 _ dep, value => update_value_defined dep value
  | averageN a dep, value =>
    if a.m_nValues = 0 then add_value_defined (averageN a dep) value
    else update_value_defined dep (to_uint8 (a.update_value value).m_value)
termination_by t _ => 2 * t.depth + 1
decreasing_by all_goals (simp_wf <;> simp only [depth] <;> omega)

end

/-- The call `add_value(value)` as a fallible function: the state afterwards and
the returned `bool` when the call runs to completion, `none` when it traps in a
division by zero. -/
def try_add_value (t : Average) (value : Nat) : Option (Average × Bool) :=
  if t.add_value_defined value = true then some (t.add_value value) else none

/-- The call `update_value(value)` as a fallible function: the state afterwards
when the call runs to completion, `none` when it traps in a division by zero. -/
def try_update_value (t : Average) (value : Nat) : Option Average :=
  if t.update_value_defined value = true then some (t.update_value value) else none

/-- One call on the node as a fallible function: the state afterwards, if any. -/
def try_call (t : Average) : Call → Option Average
  | Call.add_value v => (t.try_add_value v).map Prod.fst
  | Call.update_value v => t.try_update_value v

/-- A sequence of calls on the node, first call first, as a fallible function:
the state after the last call when every call runs to completion, `none` as soon
as one of them traps. -/
def try_calls (t : Average) : List Call → Option Average
  | [] => some t
  | c :: cs => (t.try_call c).bind (fun t' => try_calls t' cs)

end Average

namespace AverageN

/-- The buffer has `N` cells and the cursor is inside it. -/
def Shaped (a : AverageN) : Prop := a.m_begin.length = a.N ∧ a.m_i < a.N

end AverageN

namespace Average

/-- Every `AverageN<N>` on the chain has a buffer of `N` cells and its cursor
inside it. -/
def Shaped : Average → Prop
  | null => True
  | average1 _ d => Shaped d
  | averageN a d => a.Shaped ∧ Shaped d

/-- A chain of freshly constructed averages of any capacities `N ≥ 1`: every
`Average1` holds 0 and every `AverageN<N>` is as its constructor leaves it. -/
def Constructed : Average → Prop
  | null => True
  | average1 v d => v = 0 ∧ Constructed d
  | averageN a d => (∃ N, 1 ≤ N ∧ a = AverageN.init N) ∧ Constructed d

end Average

/-! ## Arithmetic and list lemmas -/

theorem mod_ne_of_near {N t k : Nat} (hne : t ≠ k) (h1 : t < k + N) (h2 : k < t + N) :
    t % N ≠ k % N := by
  intro h
  rcases Nat.lt_or_gt_of_ne hne with hlt | hgt
  · have hd : N ∣ k - t := (Nat.modEq_iff_dvd' hlt.le).1 h
    have := Nat.le_of_dvd (by omega) hd
    omega
  · have hd : N ∣ t - k := (Nat.modEq_iff_dvd' hgt.le).1 h.symm
    have := Nat.le_of_dvd (by omega) hd
    omega

/-- Assigning `v` to cell `i` changes the sum of the stored samples by `v` minus the
sample cell `i` held. -/
theorem sum_map_set (l : List (Option Nat)) (i v : Nat) (hi : i < l.length) :
    ((l.set i (some v)).map (fun c => c.getD 0)).sum + (l[i]?.getD none).getD 0
      = (l.map (fun c => c.getD 0)).sum + v := by
  induction l generalizing i with
  | nil => simp at hi
  | cons c l ih =>
    cases i with
    | zero => simp; omega
    | succ i =>
      simp only [List.length_cons, Nat.add_lt_add_iff_right] at hi
      have := ih i hi
      simp only [List.set_cons_succ, List.map_cons, List.sum_cons, List.getElem?_cons_succ]
      omega

/-- Appending a sample to a sequence drops from the window the sample `N` places
back, if there is one, and adds the new sample. -/
theorem window_snoc (N : Nat) (hN : 1 ≤ N) (vs : List Nat) (v : Nat) :
    ∃ r, (window N vs).sum = (if N ≤ vs.length then vs[vs.length - N]?.getD 0 else 0) + r ∧
      (window N (vs ++ [v])).sum = r + v := by
  unfold window
  by_cases h : N ≤ vs.length
  · have h1 : (vs ++ [v]).length - N = (vs.length - N) + 1 := by simp; omega
    have h2 : vs.length - N < vs.length := by omega
    have h3 : (List.drop (vs.length - N) vs).sum
        = vs[vs.length - N] + (List.drop (vs.length - N + 1) vs).sum := by
      rw [List.drop_eq_getElem_cons h2, List.sum_cons]
    refine ⟨(List.drop (vs.length - N + 1) vs).sum, ?_, ?_⟩
    · rw [if_pos h, h3, List.getElem?_eq_getElem h2]; simp
    · rw [h1, List.drop_append_of_le_length (by omega), List.sum_append]; simp
  · have h1 : (vs ++ [v]).length - N = 0 := by simp; omega
    have h2 : vs.length - N = 0 := by omega
    refine ⟨vs.sum, ?_, ?_⟩
    · rw [h2, if_neg h]; simp
    · rw [h1]; simp

/-- The residue of `k + 1` modulo `N` from the residue of `k`, as `next` computes
it. -/
theorem succ_mod_eq (k N : Nat) (hN : 1 ≤ N) :
    (k + 1) % N = if k % N + 1 = N then 0 else k % N + 1 := by
  have hlt : k % N < N := Nat.mod_lt _ hN
  rw [Nat.add_mod]
  by_cases h1 : N = 1
  · subst h1; simp [Nat.mod_one]
  · have h1' : 1 % N = 1 := Nat.mod_eq_of_lt (by omega)
    rw [h1']
    split
    · rename_i h; rw [h, Nat.mod_self]
    · rename_i h; exact Nat.mod_eq_of_lt (by omega)

/-- The sum of the window of a non-empty sequence is a part independent of the last
sample plus the last sample. -/
theorem window_last (N : Nat) (hN : 1 ≤ N) (ini : List Nat) :
    ∃ r, ∀ x, (window N (ini ++ [x])).sum = r + x := by
  refine ⟨(List.drop (ini.length + 1 - N) ini).sum, fun x => ?_⟩
  unfold window
  have h1 : (ini ++ [x]).length - N ≤ ini.length := by simp; omega
  rw [List.drop_append_of_le_length h1]
  simp

namespace AverageN

/-- The capacity is not changed by `add_value`. -/
theorem add_value_N (a : AverageN) (v : Nat) : (a.add_value v).N = a.N := by
  unfold add_value; split <;> rfl

/-- The buffer after `add_value`: the cell under the cursor is assigned. -/
theorem add_value_m_begin (a : AverageN) (v : Nat) :
    (a.add_value v).m_begin = a.m_begin.set a.m_i (some v) := by
  unfold add_value; split <;> rfl

/-- The cursor after `add_value`. -/
theorem add_value_m_i (a : AverageN) (v : Nat) : (a.add_value v).m_i = a.next a.m_i := by
  unfold add_value; split <;> rfl

/-- The count after `add_value`. -/
theorem add_value_m_nValues (a : AverageN) (v : Nat) :
    (a.add_value v).m_nValues
      = if a.m_nValues = a.N then a.m_nValues else (a.m_nValues + 1) % 4294967296 := by
  unfold add_value; split <;> rfl

/-- The running sum after `add_value`. -/
theorem add_value_m_sum (a : AverageN) (v : Nat) :
    (a.add_value v).m_sum
      = add32 (if a.m_nValues = a.N then sub32 a.m_sum (a.deref a.m_i) else a.m_sum)
          (((a.m_begin.set a.m_i (some v))[a.m_i]?.getD none).getD 0) := by
  unfold add_value deref; split <;> rfl

/-- The mean after `add_value`. -/
theorem add_value_m_value (a : AverageN) (v : Nat) :
    (a.add_value v).m_value = (a.add_value v).m_sum / (a.add_value v).m_nValues := by
  unfold add_value; split <;> rfl

/-- The capacity is not changed by `update_value`. -/
theorem update_value_N (a : AverageN) (v : Nat) : (a.update_value v).N = a.N := rfl

/-- The buffer after `update_value`: the cell before the cursor is assigned. -/
theorem update_value_m_begin (a : AverageN) (v : Nat) :
    (a.update_value v).m_begin = a.m_begin.set (a.prev a.m_i) (some v) := rfl

/-- The cursor is not changed by `update_value`. -/
theorem update_value_m_i (a : AverageN) (v : Nat) : (a.update_value v).m_i = a.m_i := rfl

/-- The count is not changed by `update_value`. -/
theorem update_value_m_nValues (a : AverageN) (v : Nat) :
    (a.update_value v).m_nValues = a.m_nValues := rfl

/-- The running sum after `update_value`. -/
theorem update_value_m_sum (a : AverageN) (v : Nat) :
    (a.update_value v).m_sum
      = add32 (sub32 a.m_sum (a.deref (a.prev a.m_i)))
          (((a.m_begin.set (a.prev a.m_i) (some v))[a.prev a.m_i]?.getD none).getD 0) := rfl

/-- The mean after `update_value`. -/
theorem update_value_m_value (a : AverageN) (v : Nat) :
    (a.update_value v).m_value = (a.update_value v).m_sum / (a.update_value v).m_nValues := rfl


/-- The freshly constructed node represents the empty sequence. -/
theorem Abs.of_init (N : Nat) (h1 : 1 ≤ N) (h2 : N < 4294967296) : Abs (AverageN.init N) [] := by
  refine ⟨h1, h2, by simp [AverageN.init], by simp, by simp [AverageN.init],
    by simp [AverageN.init], ?_, by simp [AverageN.init, window],
    by simp [AverageN.init, stored_sum, window], by simp [AverageN.init]⟩
  intro t _ ht
  have : t < N := by simpa [AverageN.init] using ht
  simp [AverageN.init, Nat.mod_eq_of_lt this, List.getElem?_replicate, this]

/-- The cell under the cursor holds the sample about to leave the window. -/
theorem Abs.cursor_cell {a : AverageN} {vs : List Nat} (h : Abs a vs) :
    a.m_begin[a.m_i]? = some (if a.N ≤ vs.length then vs[vs.length - a.N]? else none) := by
  by_cases hk : a.N ≤ vs.length
  · have := h.cells (vs.length - a.N) (by omega) (Or.inl (by have := h.pos; omega))
    rw [← Nat.mod_eq_sub_mod hk] at this
    rw [h.cur, this, if_pos hk]
  · have := h.cells vs.length (by omega) (Or.inr (by omega))
    rw [h.cur, this, if_neg hk]
    simp

/-- After `add_value(v)` the node represents the sequence extended by `v`. -/
theorem Abs.after_add_value {a : AverageN} {vs : List Nat} (h : Abs a vs) {v : Nat} (hv : v < 256) :
    Abs (a.add_value v) (vs ++ [v]) := by
  have hpos := h.pos
  have hcap := h.cap
  have hcur : a.m_i < a.m_begin.length := by rw [h.len, h.cur]; exact Nat.mod_lt _ hpos
  have hcell := h.cursor_cell
  have hread : ((a.m_begin.set a.m_i (some v))[a.m_i]?.getD none).getD 0 = v := by
    simp [List.getElem?_set_self, hcur]
  have hold : a.deref a.m_i = (if a.N ≤ vs.length then vs[vs.length - a.N]?.getD 0 else 0) := by
    unfold deref; rw [hcell]; split <;> simp
  obtain ⟨r, hr1, hr2⟩ := window_snoc a.N hpos vs v
  have hx : (if a.N ≤ vs.length then vs[vs.length - a.N]?.getD 0 else 0) < 256 := by
    split
    · rename_i hk
      have h2 : vs.length - a.N < vs.length := by omega
      rw [List.getElem?_eq_getElem h2]
      exact h.byte _ (List.getElem_mem _)
    · omega
  have hcnt : (a.add_value v).m_nValues = min (vs.length + 1) a.N := by
    rw [add_value_m_nValues, h.cnt]
    split
    · omega
    · rename_i hne
      have : min vs.length a.N + 1 < 4294967296 := by omega
      rw [Nat.mod_eq_of_lt this]; omega
  have hsum : (a.add_value v).m_sum = (r + v) % 4294967296 := by
    rw [add_value_m_sum, hread, hold, h.sum, h.cnt, hr1]
    unfold add32 sub32
    split
    · rename_i hfull
      have hk : a.N ≤ vs.length := by omega
      rw [if_pos hk] at hx ⊢
      omega
    · rename_i hfull
      have hk : ¬ a.N ≤ vs.length := by omega
      rw [if_neg hk]
      omega
  refine ⟨by rw [add_value_N]; exact hpos, by rw [add_value_N]; exact hcap,
    by rw [add_value_m_begin, add_value_N, List.length_set]; exact h.len, ?_, ?_, ?_, ?_, ?_, ?_,
    add_value_m_value a v⟩
  · intro x hx
    rcases List.mem_append.1 hx with hx | hx
    · exact h.byte x hx
    · simp at hx; omega
  · rw [add_value_m_i, add_value_N, h.cur]
    simp only [next, List.length_append, List.length_singleton]
    exact (succ_mod_eq _ _ hpos).symm
  · rw [hcnt, add_value_N]; simp
  · intro t ht1 ht2
    rw [add_value_N] at ht1 ht2 ⊢
    simp only [List.length_append, List.length_singleton] at ht1 ht2
    rw [add_value_m_begin, h.cur]
    by_cases htk : t = vs.length
    · subst htk
      rw [List.getElem?_set_self (by rw [h.len]; exact Nat.mod_lt _ hpos)]
      simp
    · rw [List.getElem?_set_ne (fun e => mod_ne_of_near htk (by omega) (by omega) e.symm)]
      rw [h.cells t (by omega) (by omega)]
      congr 1
      by_cases hlt : t < vs.length
      · rw [List.getElem?_append_left hlt]
      · rw [List.getElem?_eq_none (by omega), List.getElem?_eq_none (by simp; omega)]
  · rw [hsum, add_value_N, hr2]
  · have := sum_map_set a.m_begin a.m_i v hcur
    rw [hcell] at this
    have hst : (a.add_value v).stored_sum = ((a.m_begin.set a.m_i (some v)).map
        (fun c => c.getD 0)).sum := by
      unfold stored_sum; rw [add_value_m_begin]
    have hs := h.stored
    unfold stored_sum at hs
    rw [hst, add_value_N, hr2]
    rw [hs, hr1] at this
    simp only [Option.getD_some] at this
    split at this <;> (simp_all; try omega)


/-- On a node that represents a non-empty sequence, `prev` of the cursor is the cell
of the most recent sample. -/
theorem Abs.prev_cursor {a : AverageN} {ini : List Nat} {w : Nat} (h : Abs a (ini ++ [w])) :
    a.prev a.m_i = ini.length % a.N := by
  have hpos := h.pos
  have hlt : ini.length % a.N < a.N := Nat.mod_lt _ hpos
  rw [h.cur]
  simp only [List.length_append, List.length_singleton, prev]
  rw [succ_mod_eq _ _ hpos]
  split <;> split <;> omega

/-- After `update_value(v)` a node with at least one sample represents the sequence
with its last sample replaced by `v`. -/
theorem Abs.after_update_value {a : AverageN} {ini : List Nat} {w : Nat} (h : Abs a (ini ++ [w]))
    {v : Nat} (hv : v < 256) : Abs (a.update_value v) (ini ++ [v]) := by
  have hpos := h.pos
  have hcap := h.cap
  have hp := h.prev_cursor
  have hplt : ini.length % a.N < a.m_begin.length := by rw [h.len]; exact Nat.mod_lt _ hpos
  have hcell : a.m_begin[ini.length % a.N]? = some (some w) := by
    have := h.cells ini.length (by simp; omega) (Or.inl (by simp))
    rw [this]; simp
  have hw : w < 256 := h.byte w (by simp)
  obtain ⟨r, hr⟩ := window_last a.N hpos ini
  have hsum : (a.update_value v).m_sum = (r + v) % 4294967296 := by
    rw [update_value_m_sum, hp, List.getElem?_set_self hplt]
    unfold deref
    rw [hcell, h.sum, hr w]
    unfold add32 sub32
    simp only [Option.getD_some]
    omega
  refine ⟨hpos, hcap, by rw [update_value_m_begin, update_value_N, List.length_set]; exact h.len,
    ?_, ?_, ?_, ?_, ?_, ?_, update_value_m_value a v⟩
  · intro x hx
    rcases List.mem_append.1 hx with hx | hx
    · exact h.byte x (List.mem_append_left _ hx)
    · simp at hx; omega
  · rw [update_value_m_i, update_value_N, h.cur]; simp
  · rw [update_value_m_nValues, update_value_N, h.cnt]; simp
  · intro t ht1 ht2
    rw [update_value_N] at ht1 ht2 ⊢
    simp only [List.length_append, List.length_singleton] at ht1 ht2
    rw [update_value_m_begin, hp]
    by_cases htk : t = ini.length
    · subst htk
      rw [List.getElem?_set_self hplt]
      simp
    · rw [List.getElem?_set_ne (fun e => mod_ne_of_near htk (by omega) (by omega) e.symm)]
      rw [h.cells t (by simp; omega) (by simp; omega)]
      congr 1
      by_cases hlt : t < ini.length
      · rw [List.getElem?_append_left hlt, List.getElem?_append_left hlt]
      · rw [List.getElem?_eq_none (by simp; omega), List.getElem?_eq_none (by simp; omega)]
  · rw [hsum, update_value_N, hr v]
  · have := sum_map_set a.m_begin (ini.length % a.N) v hplt
    rw [hcell] at this
    have hst : (a.update_value v).stored_sum = ((a.m_begin.set (ini.length % a.N) (some v)).map
        (fun c => c.getD 0)).sum := by
      unfold stored_sum; rw [update_value_m_begin, hp]
    have hs := h.stored
    unfold stored_sum at hs
    rw [hst, update_value_N, hr v]
    rw [hs, hr w] at this
    simp only [Option.getD_some] at this
    omega

/-- The sum of a window of samples of at most `B` is at most `B` times their number.
-/
theorem window_sum_le (N : Nat) (vs : List Nat) (B : Nat)
    (hB : ∀ x ∈ vs, x ≤ B) : (window N vs).sum ≤ min vs.length N * B := by
  have hb : ∀ x ∈ window N vs, x ≤ B := fun x hx => hB x (List.mem_of_mem_drop hx)
  have := List.sum_le_card_nsmul _ B hb
  have hl : (window N vs).length = min vs.length N := by
    unfold window; simp; omega
  rw [hl] at this
  simpa using this

/-- The mean of samples of at most `B` is at most `B`. -/
theorem Abs.mean_le {a : AverageN} {vs : List Nat} (h : Abs a vs) {B : Nat}
    (hB : ∀ x ∈ vs, x ≤ B) : a.m_value ≤ B := by
  rw [h.mean, h.sum, h.cnt]
  have h1 := window_sum_le a.N vs _ hB
  have h2 : (window a.N vs).sum % 4294967296 ≤ min vs.length a.N * B :=
    le_trans (Nat.mod_le _ _) h1
  exact Nat.div_le_of_le_mul h2

/-- When `255 * N < 2^32` the running sum does not wrap: the mean is the quotient of
the sum of the window by the count, and it is an 8-bit value. -/
theorem Abs.mean_exact {a : AverageN} {vs : List Nat} (h : Abs a vs)
    (hN : 255 * a.N < 4294967296) :
    a.m_value = (window a.N vs).sum / min vs.length a.N ∧ a.m_value ≤ 255 := by
  have hB : ∀ x ∈ vs, x ≤ 255 := fun x hx => by have := h.byte x hx; omega
  refine ⟨?_, h.mean_le hB⟩
  have h1 := window_sum_le a.N vs _ hB
  have h2 : (window a.N vs).sum < 4294967296 := by
    have : min vs.length a.N * 255 ≤ a.N * 255 := Nat.mul_le_mul_right _ (Nat.min_le_right _ _)
    omega
  rw [h.mean, h.sum, h.cnt, Nat.mod_eq_of_lt h2]

/-- A node with a non-zero count represents a non-empty sequence. -/
theorem Abs.ne_nil {a : AverageN} {vs : List Nat} (h : Abs a vs) (hn : a.m_nValues ≠ 0) :
    vs ≠ [] := by
  intro e
  subst e
  have := h.cnt
  simp at this
  exact hn this

/-- A node with count zero represents the empty sequence. -/
theorem Abs.eq_nil {a : AverageN} {vs : List Nat} (h : Abs a vs) (hn : a.m_nValues = 0) :
    vs = [] := by
  have h1 := h.cnt
  have h2 := h.pos
  rw [hn] at h1
  have : vs.length = 0 := by omega
  exact List.length_eq_zero.1 this

/-- After a sequence of `add_value` calls the node represents the sequence extended
by the samples. -/
theorem Abs.after_add_values {vs : List Nat} (hvs : ∀ x ∈ vs, x < 256) :
    ∀ {a : AverageN} {us : List Nat}, Abs a us → Abs (vs.foldl AverageN.add_value a) (us ++ vs) := by
  induction vs with
  | nil => intro a us h; simpa using h
  | cons v vs ih =>
    intro a us h
    have h1 := h.after_add_value (hvs v (by simp))
    have h2 := ih (fun x hx => hvs x (by simp [hx])) h1
    simpa using h2

end AverageN

namespace Average

/-- Unfolding of `add_value` on an `Average1`. -/
theorem add_value_average1 (x : Nat) (d : Average) (v : Nat) :
    add_value (average1 x d) v = (average1 v (add_value d v).1, true) := by
  rw [add_value]

/-- Unfolding of `add_value` on an `AverageN<N>`. -/
theorem add_value_averageN (a : AverageN) (d : Average) (v : Nat) :
    add_value (averageN a d) v =
      if (a.add_value v).m_i = 0 then
        (averageN (a.add_value v) (add_value d (to_uint8 (a.add_value v).m_value)).1, true)
      else
        (averageN (a.add_value v) (update_value d (to_uint8 (a.add_value v).m_value)), false) := by
  rw [add_value]

/-- Unfolding of `update_value` on an `Average1`. -/
theorem update_value_average1 (x : Nat) (d : Average) (v : Nat) :
    update_value (average1 x d) v = average1 v (update_value d v) := by
  rw [update_value]

/-- Unfolding of `update_value` on an `AverageN<N>`. -/
theorem update_value_averageN (a : AverageN) (d : Average) (v : Nat) :
    update_value (averageN a d) v =
      if a.m_nValues = 0 then (add_value (averageN a d) v).1
      else averageN (a.update_value v) (update_value d (to_uint8 (a.update_value v).m_value)) := by
  rw [update_value]

/-- After `add_value` on an `AverageN<N>` the node itself is the result of the node-
level `add_value`. -/
theorem add_value_root (a : AverageN) (d : Average) (v : Nat) :
    ∃ d', (add_value (averageN a d) v).1 = averageN (a.add_value v) d' := by
  rw [add_value_averageN]
  split
  · exact ⟨_, rfl⟩
  · exact ⟨_, rfl⟩

/-- After `update_value` on an `AverageN<N>` the node itself is the result of the
node-level `add_value` or `update_value`. -/
theorem update_value_root (a : AverageN) (d : Average) (v : Nat) :
    ∃ d', update_value (averageN a d) v
      = averageN (if a.m_nValues = 0 then a.add_value v else a.update_value v) d' := by
  rw [update_value_averageN]
  split
  · exact add_value_root a d v
  · exact ⟨_, rfl⟩

/-- After a sequence of `add_value` calls on an `AverageN<N>` the node itself is the
iterated node-level `add_value`. -/
theorem add_values_root (vs : List Nat) : ∀ (a : AverageN) (d : Average),
    ∃ d', add_values (averageN a d) vs = averageN (vs.foldl AverageN.add_value a) d' := by
  induction vs with
  | nil => intro a d; exact ⟨d, rfl⟩
  | cons v vs ih =>
    intro a d
    obtain ⟨d1, h1⟩ := add_value_root a d v
    obtain ⟨d2, h2⟩ := ih (a.add_value v) d1
    refine ⟨d2, ?_⟩
    simp only [add_values, List.foldl_cons] at h2 ⊢
    rw [h1, h2]

end Average

open Average

/-- The last `min k N` elements of a sequence of length `k` are its window. -/
theorem window_eq_drop_min (N : Nat) (vs : List Nat) :
    vs.drop (vs.length - min vs.length N) = window N vs := by
  unfold window
  congr 1
  omega

/-- The capacity is not changed by a sequence of `add_value` calls. -/
theorem foldl_add_value_N (vs : List Nat) : ∀ a : AverageN,
    (vs.foldl AverageN.add_value a).N = a.N := by
  induction vs with
  | nil => intro a; rfl
  | cons v vs ih => intro a; rw [List.foldl_cons, ih, AverageN.add_value_N]

/-- A node that starts empty and receives `add_value` for each sample of `vs`
represents `vs`. -/
theorem add_values_abs (N : Nat) (hN : 1 ≤ N) (hcap : N < 4294967296) (vs : List Nat)
    (h8 : ∀ v ∈ vs, v < 256) (dep : Average) :
    ∃ a d, add_values (averageN (AverageN.init N) dep) vs = averageN a d ∧ a.Abs vs ∧ a.N = N := by
  obtain ⟨d, hd⟩ := add_values_root vs (AverageN.init N) dep
  have h := AverageN.Abs.after_add_values h8 (AverageN.Abs.of_init N hN hcap)
  simp only [List.nil_append] at h
  exact ⟨_, d, hd, h, foldl_add_value_N vs _⟩

/-- C1 (as amended): for every `N` with `1 ≤ N` and `255 * N < 2^32` and every
non-empty sequence `vs` of 8-bit samples, an `AverageN<N>` that starts empty (with
any dependant) and receives `add_value` for each sample in turn has `value()`
equal to the integer quotient of the sum of the last `min k N` samples by
`min k N`, where `k` is the number of samples. -/
theorem C1_add_value_sliding_mean (N : Nat) (hN : 1 ≤ N) (hcap : 255 * N < 4294967296)
    (vs : List Nat) (_hne : vs ≠ []) (h8 : ∀ v ∈ vs, v < 256) (dep : Average) :
    (add_values (averageN (AverageN.init N) dep) vs).value
      = (vs.drop (vs.length - min vs.length N)).sum / min vs.length N := by
  obtain ⟨a, d, he, ha, hn⟩ := add_values_abs N hN (by omega) vs h8 dep
  have hm := ha.mean_exact (by rw [hn]; exact hcap)
  rw [he, window_eq_drop_min, value, m_value, to_uint8, Nat.mod_eq_of_lt (by omega), hm.1, hn]

/-- Witness for C1: capacity 3 and the six samples 1, 2, 3, 4, 5, 255. -/
theorem C1_add_value_sliding_mean_witness :
    (1 ≤ 3 ∧ 255 * 3 < 4294967296 ∧ [1, 2, 3, 4, 5, 255] ≠ [] ∧
      ∀ v ∈ [1, 2, 3, 4, 5, 255], v < 256) ∧
    (add_values (averageN (AverageN.init 3) null) [1, 2, 3, 4, 5, 255]).value
      = (([1, 2, 3, 4, 5, 255] : List Nat).drop
          (([1, 2, 3, 4, 5, 255] : List Nat).length
            - min ([1, 2, 3, 4, 5, 255] : List Nat).length 3)).sum
        / min ([1, 2, 3, 4, 5, 255] : List Nat).length 3 :=
  ⟨⟨by decide, by decide, by decide, by decide⟩,
    C1_add_value_sliding_mean 3 (by decide) (by decide) [1, 2, 3, 4, 5, 255] (by decide)
      (by decide) null⟩

/-- The value of a node of capacity `n` after `n` equal samples `c`, computed with
the 32-bit sum. -/
theorem const_stream_value (n c : Nat) (h1 : 1 ≤ n) (h2 : n < 4294967296) (hc : c < 256)
    (dep : Average) :
    (add_values (averageN (AverageN.init n) dep) (List.replicate n c)).value
      = to_uint8 ((n * c) % 4294967296 / n) := by
  obtain ⟨a, d, he, ha, hn⟩ := add_values_abs n h1 h2 (List.replicate n c)
    (fun v hv => by rw [List.eq_of_mem_replicate hv]; exact hc) dep
  have hw : (window n (List.replicate n c)).sum = n * c := by
    unfold window
    rw [List.length_replicate, Nat.sub_self, List.drop_zero, List.sum_replicate, smul_eq_mul]
  rw [he, value, m_value, ha.mean, ha.sum, ha.cnt, hn, hw, List.length_replicate, Nat.min_self]

/-- The mean of the last `n` of `n` equal samples `c` is `c`. -/
theorem const_stream_mean (n c : Nat) (h1 : 1 ≤ n) :
    ((List.replicate n c).drop ((List.replicate n c).length
        - min (List.replicate n c).length n)).sum / min (List.replicate n c).length n = c := by
  rw [List.length_replicate, Nat.min_self, Nat.sub_self, List.drop_zero, List.sum_replicate,
    smul_eq_mul]
  exact Nat.mul_div_cancel_left c (by omega)

/-- Counterexample to C1 as stated (every `N ≥ 1`): with `N = 16843010` and
`N` samples of 255 the 32-bit running sum `255 * N = 4294967550` wraps to 254, so
`value()` is 0 while the mean of the last `N` samples is 255. -/
theorem C1_counterexample :
    (add_values (averageN (AverageN.init 16843010) null) (List.replicate 16843010 255)).value = 0 ∧
    ((List.replicate 16843010 255).drop ((List.replicate 16843010 255).length
        - min (List.replicate 16843010 255).length 16843010)).sum
      / min (List.replicate 16843010 255).length 16843010 = 255 :=
  ⟨(const_stream_value 16843010 255 (by norm_num) (by norm_num) (by norm_num) null).trans
      (by norm_num [to_uint8]),
    const_stream_mean 16843010 255 (by norm_num)⟩


/-- The cursor after a sequence of `add_value` calls advances by their number modulo
`N`. -/
theorem foldl_add_value_cursor (vs : List Nat) : ∀ (a : AverageN) (k : Nat), 1 ≤ a.N →
    a.m_i = k % a.N → (vs.foldl AverageN.add_value a).m_i = (k + vs.length) % a.N := by
  induction vs with
  | nil => intro a k _ h; simpa using h
  | cons v vs ih =>
    intro a k hN h
    have h1 : (a.add_value v).m_i = (k + 1) % (a.add_value v).N := by
      rw [AverageN.add_value_m_i, AverageN.add_value_N, h, succ_mod_eq _ _ hN]
      rfl
    have := ih (a.add_value v) (k + 1) (by rw [AverageN.add_value_N]; exact hN) h1
    rw [List.foldl_cons, this, AverageN.add_value_N, List.length_cons]
    congr 1
    omega

/-- The boolean returned by `add_value` on an `AverageN<N>`. -/
theorem add_value_snd (a : AverageN) (d : Average) (v : Nat) :
    (add_value (averageN a d) v).2 = decide ((a.add_value v).m_i = 0) := by
  rw [add_value_averageN]
  split <;> simp_all

/-- The fields of the node after `add_value` on an `AverageN<N>`. -/
theorem add_value_self (a : AverageN) (d : Average) (v : Nat) :
    (add_value (averageN a d) v).1.self = a.add_value v := by
  obtain ⟨d', h⟩ := add_value_root a d v
  rw [h]; rfl

/-- C4: for every `Average1` in any state, with any dependant `d`, and every
8-bit `v`: after `add_value(v)` the value is `v`, the call returns true, and the
dependant is `d` after `add_value(v)`. -/
theorem C4_average1_add_value (x : Nat) (d : Average) (v : Nat) (hv : v < 256) :
    (add_value (average1 x d) v).1.value = v ∧
    (add_value (average1 x d) v).2 = true ∧
    (add_value (average1 x d) v).1.m_pDependant = (add_value d v).1 := by
  rw [add_value_average1]
  refine ⟨?_, rfl, rfl⟩
  simp only [value, m_value, to_uint8]
  exact Nat.mod_eq_of_lt hv

/-- Witness for C4: an `Average1` holding 7 whose dependant is an empty
`AverageN<60>`, and the sample 200. -/
theorem C4_average1_add_value_witness :
    (200 : Nat) < 256 ∧
    (add_value (average1 7 (averageN (AverageN.init 60) null)) 200).1.value = 200 ∧
    (add_value (average1 7 (averageN (AverageN.init 60) null)) 200).2 = true ∧
    (add_value (average1 7 (averageN (AverageN.init 60) null)) 200).1.m_pDependant
      = (add_value (averageN (AverageN.init 60) null) 200).1 :=
  ⟨by decide, C4_average1_add_value 7 (averageN (AverageN.init 60) null) 200 (by decide)⟩

/-- After `update_value(v)` in either of its branches the node represents some
sequence. -/
theorem AverageN.Abs.dispatch {a : AverageN} {us : List Nat} (h : a.Abs us) {v : Nat}
    (hv : v < 256) :
    ∃ us', (if a.m_nValues = 0 then a.add_value v else a.update_value v).Abs us' := by
  by_cases h0 : a.m_nValues = 0
  · rw [if_pos h0]; exact ⟨_, h.after_add_value hv⟩
  · rw [if_neg h0]
    have hne := h.ne_nil h0
    rcases List.eq_nil_or_concat us with e | ⟨ini, w, e⟩
    · exact absurd e hne
    · rw [List.concat_eq_append] at e
      subst e
      exact ⟨_, h.after_update_value hv⟩

/-- Every state reached by calls with 8-bit arguments from a node that represents a
sequence is an `AverageN<N>` of the same capacity that represents a sequence. -/
theorem calls_abs (cs : List Call) (hcs : ∀ c ∈ cs, c.arg < 256) :
    ∀ (a : AverageN) (d : Average) (us : List Nat), a.Abs us →
      ∃ a' d' us', calls (averageN a d) cs = averageN a' d' ∧ a'.Abs us' ∧ a'.N = a.N := by
  induction cs with
  | nil => intro a d us h; exact ⟨a, d, us, rfl, h, rfl⟩
  | cons c cs ih =>
    intro a d us h
    have hc : c.arg < 256 := hcs c (by simp)
    have hrest : ∀ c ∈ cs, c.arg < 256 := fun x hx => hcs x (by simp [hx])
    cases c with
    | add_value v =>
      change v < 256 at hc
      obtain ⟨d1, h1⟩ := add_value_root a d v
      obtain ⟨a', d', us', e, habs, hn⟩ := ih hrest (a.add_value v) d1 _ (h.after_add_value hc)
      refine ⟨a', d', us', ?_, habs, by rw [hn, AverageN.add_value_N]⟩
      simp only [calls, List.foldl_cons, call] at e ⊢
      rw [h1, e]
    | update_value v =>
      change v < 256 at hc
      obtain ⟨d1, h1⟩ := update_value_root a d v
      obtain ⟨us1, habs1⟩ := h.dispatch hc
      obtain ⟨a', d', us', e, habs, hn⟩ := ih hrest _ d1 _ habs1
      refine ⟨a', d', us', ?_, habs, ?_⟩
      · simp only [calls, List.foldl_cons, call] at e ⊢
        rw [h1, e]
      · rw [hn]; split
        · rw [AverageN.add_value_N]
        · rfl

/-- The effect of `update_value` on a node that represents a sequence and holds at
least one sample; the value is the mean of the stored samples when the 32-bit sum
cannot wrap. -/
theorem update_value_nonempty {a : AverageN} {us : List Nat} (h : a.Abs us)
    (d : Average) {v : Nat} (hv : v < 256)
    (hcount : 1 ≤ a.m_nValues) :
    (update_value (averageN a d) v).self.m_nValues = a.m_nValues ∧
    (update_value (averageN a d) v).self.m_i = a.m_i ∧
    (∀ j, j ≠ a.prev a.m_i →
      (update_value (averageN a d) v).self.m_begin[j]? = a.m_begin[j]?) ∧
    (update_value (averageN a d) v).self.m_begin[a.prev a.m_i]? = some (some v) ∧
    (255 * a.N < 4294967296 →
      (update_value (averageN a d) v).value
        = (update_value (averageN a d) v).self.stored_sum
            / (update_value (averageN a d) v).self.m_nValues) := by
  have h0 : a.m_nValues ≠ 0 := by omega
  have hne := h.ne_nil h0
  rcases List.eq_nil_or_concat us with e | ⟨ini, w, e⟩
  · exact absurd e hne
  rw [List.concat_eq_append] at e
  subst e
  have hroot : (update_value (averageN a d) v).self = a.update_value v := by
    rw [update_value_averageN, if_neg h0]; rfl
  have hval : (update_value (averageN a d) v).value = to_uint8 (a.update_value v).m_value := by
    rw [update_value_averageN, if_neg h0]; rfl
  have hp := h.prev_cursor
  have hplt : a.prev a.m_i < a.m_begin.length := by
    rw [hp, h.len]; exact Nat.mod_lt _ h.pos
  have h' := h.after_update_value hv
  rw [hroot, hval]
  refine ⟨rfl, rfl, fun j hj => ?_, ?_, fun hcap => ?_⟩
  · rw [AverageN.update_value_m_begin, List.getElem?_set_ne (Ne.symm hj)]
  · rw [AverageN.update_value_m_begin, List.getElem?_set_self hplt]
  · have hm := h'.mean_exact hcap
    rw [to_uint8, Nat.mod_eq_of_lt (by omega), hm.1, h'.stored, h'.cnt]

/-- C5 (as amended): for every `N` with `1 ≤ N < 2^32`, every `AverageN<N>` node
`t` reached from the empty node by calls of `add_value` and `update_value` with
8-bit arguments and holding at least one sample, and every 8-bit `v`:
`update_value(v)` leaves the count and the cursor unchanged, leaves every cell
other than the one just before the cursor unchanged, and stores `v` in the cell
just before the cursor; and when moreover `255 * N < 2^32` it makes `value()` the
integer quotient of the sum of the stored samples by the count. -/
theorem C5_update_value_replaces_last (N : Nat) (hN : 1 ≤ N) (hcap : N < 4294967296)
    (dep : Average) (cs : List Call) (hcs : ∀ c ∈ cs, c.arg < 256) (t : Average)
    (ht : t = calls (averageN (AverageN.init N) dep) cs) (hcount : 1 ≤ t.self.m_nValues)
    (v : Nat) (hv : v < 256) :
    (update_value t v).self.m_nValues = t.self.m_nValues ∧
    (update_value t v).self.m_i = t.self.m_i ∧
    (∀ j, j ≠ t.self.prev t.self.m_i →
      (update_value t v).self.m_begin[j]? = t.self.m_begin[j]?) ∧
    (update_value t v).self.m_begin[t.self.prev t.self.m_i]? = some (some v) ∧
    (255 * N < 4294967296 →
      (update_value t v).value
        = (update_value t v).self.stored_sum / (update_value t v).self.m_nValues) := by
  obtain ⟨a, d, us, e, habs, hn⟩ :=
    calls_abs cs hcs (AverageN.init N) dep [] (AverageN.Abs.of_init N hN hcap)
  rw [← ht] at e
  subst e
  have h := update_value_nonempty habs d hv hcount
  rw [hn] at h
  exact h

/-- A sequence of equal `add_value` calls as `add_values`. -/
theorem calls_replicate_add_value (n c : Nat) : ∀ t : Average,
    calls t (List.replicate n (Call.add_value c)) = add_values t (List.replicate n c) := by
  induction n with
  | zero => intro t; rfl
  | succ n ih =>
    intro t
    simp only [List.replicate_succ, calls, add_values, List.foldl_cons] at ih ⊢
    exact ih _

/-- A node of capacity `n` after `n` equal samples `c` and `update_value(c)`: its
value, computed with the 32-bit sum, and the mean of its stored samples. -/
theorem const_stream_update (n c : Nat) (h1 : 1 ≤ n) (h2 : n < 4294967296) (hc : c < 256)
    (dep : Average) :
    1 ≤ (calls (averageN (AverageN.init n) dep)
          (List.replicate n (Call.add_value c))).self.m_nValues ∧
    (update_value (calls (averageN (AverageN.init n) dep)
        (List.replicate n (Call.add_value c))) c).value = to_uint8 ((n * c) % 4294967296 / n) ∧
    (update_value (calls (averageN (AverageN.init n) dep)
        (List.replicate n (Call.add_value c))) c).self.stored_sum
      / (update_value (calls (averageN (AverageN.init n) dep)
        (List.replicate n (Call.add_value c))) c).self.m_nValues = c := by
  rw [calls_replicate_add_value]
  obtain ⟨a, d, he, ha, hn⟩ := add_values_abs n h1 h2 (List.replicate n c)
    (fun v hv => by rw [List.eq_of_mem_replicate hv]; exact hc) dep
  rw [he]
  have hcnt : a.m_nValues = n := by rw [ha.cnt, hn, List.length_replicate, Nat.min_self]
  have h0 : a.m_nValues ≠ 0 := by omega
  obtain ⟨m, rfl⟩ : ∃ m, n = m + 1 := ⟨n - 1, by omega⟩
  rw [List.replicate_succ'] at ha
  have h' := ha.after_update_value hc
  rw [← List.replicate_succ'] at h'
  have hw : (window a.N (List.replicate (m + 1) c)).sum = (m + 1) * c := by
    unfold window
    rw [hn, List.length_replicate, Nat.sub_self, List.drop_zero, List.sum_replicate, smul_eq_mul]
  have hroot : (update_value (averageN a d) c).self = a.update_value c := by
    rw [update_value_averageN, if_neg h0]; rfl
  have hval : (update_value (averageN a d) c).value = to_uint8 (a.update_value c).m_value := by
    rw [update_value_averageN, if_neg h0]; rfl
  refine ⟨by show 1 ≤ a.m_nValues; omega, ?_, ?_⟩
  · rw [hval, h'.mean, h'.sum, h'.cnt, AverageN.update_value_N, hw, hn, List.length_replicate,
      Nat.min_self]
  · rw [hroot, h'.stored, h'.cnt, AverageN.update_value_N, hw, hn, List.length_replicate,
      Nat.min_self]
    exact Nat.mul_div_cancel_left c (by omega)

/-- Counterexample to C5 as stated (every Windowed(N) node): the `AverageN<N>`
with `N = 16843010` that received `N` times `add_value(255)` holds a sample, yet
after `update_value(255)` its `value()` is 0 while the stored samples add up to
`255 * N` and their quotient by the count is 255. -/
theorem C5_counterexample :
    1 ≤ (calls (averageN (AverageN.init 16843010) null)
          (List.replicate 16843010 (Call.add_value 255))).self.m_nValues ∧
    (update_value (calls (averageN (AverageN.init 16843010) null)
        (List.replicate 16843010 (Call.add_value 255))) 255).value = 0 ∧
    (update_value (calls (averageN (AverageN.init 16843010) null)
        (List.replicate 16843010 (Call.add_value 255))) 255).self.stored_sum
      / (update_value (calls (averageN (AverageN.init 16843010) null)
        (List.replicate 16843010 (Call.add_value 255))) 255).self.m_nValues = 255 :=
  have h := const_stream_update 16843010 255 (by norm_num) (by norm_num) (by norm_num) null
  ⟨h.1, h.2.1.trans (by norm_num [to_uint8]), h.2.2⟩

/-- Witness for C5: capacity 3, the calls `add_value(10)`, `add_value(20)`,
`update_value(30)`, `add_value(40)` and then `update_value(50)`: the value becomes
`(10 + 30 + 50) / 3 = 30`. -/
theorem C5_update_value_replaces_last_witness :
    (1 ≤ 3 ∧ 3 < 4294967296 ∧
      (∀ c ∈ [Call.add_value 10, Call.add_value 20, Call.update_value 30, Call.add_value 40],
        c.arg < 256) ∧
      1 ≤ (calls (averageN (AverageN.init 3) null)
        [Call.add_value 10, Call.add_value 20, Call.update_value 30,
          Call.add_value 40]).self.m_nValues ∧
      50 < 256) ∧
    (update_value (calls (averageN (AverageN.init 3) null)
        [Call.add_value 10, Call.add_value 20, Call.update_value 30, Call.add_value 40])
        50).value = 30 :=
  have hc : 1 ≤ (calls (averageN (AverageN.init 3) null)
      [Call.add_value 10, Call.add_value 20, Call.update_value 30,
        Call.add_value 40]).self.m_nValues := by
    simp [calls, call, add_value_averageN, update_value_averageN, AverageN.add_value,
      AverageN.update_value, AverageN.init, AverageN.next, AverageN.prev, AverageN.deref,
      add32, sub32, to_uint8, self, add_value, update_value]
  have h := C5_update_value_replaces_last 3 (by decide) (by decide) null
    [Call.add_value 10, Call.add_value 20, Call.update_value 30, Call.add_value 40]
    (by decide) _ rfl hc 50 (by decide)
  ⟨⟨by decide, by decide, by decide, hc, by decide⟩, by
    rw [h.2.2.2.2 (by decide)]
    simp [calls, call, add_value_averageN, update_value_averageN, AverageN.add_value,
      AverageN.update_value, AverageN.init, AverageN.next, AverageN.prev, AverageN.deref,
      add32, sub32, to_uint8, self, add_value, update_value, AverageN.stored_sum]⟩

/-- The count, cursor and mean after `add_value(v)` on the freshly constructed node.
-/
theorem init_add_value (N : Nat) (hN : 1 ≤ N) (v : Nat) (hv : v < 256) :
    ((AverageN.init N).add_value v).m_nValues = 1 ∧
    ((AverageN.init N).add_value v).m_i = 1 % N ∧
    ((AverageN.init N).add_value v).m_value = v := by
  have h0 : (AverageN.init N).m_nValues ≠ (AverageN.init N).N := by
    simp only [AverageN.init]; omega
  have hlen : (AverageN.init N).m_i < (AverageN.init N).m_begin.length := by
    simp only [AverageN.init, List.length_replicate]; omega
  have hn : ((AverageN.init N).add_value v).m_nValues = 1 := by
    rw [AverageN.add_value_m_nValues, if_neg h0]; rfl
  have hs : ((AverageN.init N).add_value v).m_sum = v := by
    rw [AverageN.add_value_m_sum, if_neg h0, List.getElem?_set_self hlen]
    simp only [AverageN.init, add32, Option.getD_some]
    omega
  refine ⟨hn, ?_, ?_⟩
  · rw [AverageN.add_value_m_i]
    simp only [AverageN.next, AverageN.init, Nat.zero_add]
    rcases Nat.lt_or_ge 1 N with h | h
    · rw [Nat.mod_eq_of_lt h, if_neg (by omega)]
    · have : N = 1 := by omega
      subst this; rfl
  · rw [AverageN.add_value_m_value, hn, hs, Nat.div_one]

/-- C6: for every `N ≥ 1`, every dependant chain `d` and every 8-bit `v`, on an
`AverageN<N>` that holds no samples yet `update_value(v)` leaves the node and all
its dependants in the same state as `add_value(v)`: the count is 1, the cursor
has advanced by one (cyclically, `1 % N`) and the value is `v`. -/
theorem C6_update_value_on_empty (N : Nat) (hN : 1 ≤ N) (d : Average) (v : Nat) (hv : v < 256) :
    update_value (averageN (AverageN.init N) d) v
      = (add_value (averageN (AverageN.init N) d) v).1 ∧
    (update_value (averageN (AverageN.init N) d) v).self.m_nValues = 1 ∧
    (update_value (averageN (AverageN.init N) d) v).self.m_i = 1 % N ∧
    (update_value (averageN (AverageN.init N) d) v).value = v := by
  have he : update_value (averageN (AverageN.init N) d) v
      = (add_value (averageN (AverageN.init N) d) v).1 := by
    rw [update_value_averageN, if_pos (show (AverageN.init N).m_nValues = 0 from rfl)]
  obtain ⟨h1, h2, h3⟩ := init_add_value N hN v hv
  obtain ⟨d', hd⟩ := add_value_root (AverageN.init N) d v
  rw [he]
  refine ⟨rfl, ?_, ?_, ?_⟩
  · rw [add_value_self, h1]
  · rw [add_value_self, h2]
  · rw [hd, value, m_value, h3, to_uint8, Nat.mod_eq_of_lt hv]

/-- Witness for C6: an empty `AverageN<60>` whose dependant is an empty
`AverageN<60>`, and the sample 42. -/
theorem C6_update_value_on_empty_witness :
    (1 ≤ 60 ∧ 42 < 256) ∧
    update_value (averageN (AverageN.init 60) (averageN (AverageN.init 60) null)) 42
      = (add_value (averageN (AverageN.init 60) (averageN (AverageN.init 60) null)) 42).1 ∧
    (update_value (averageN (AverageN.init 60)
      (averageN (AverageN.init 60) null)) 42).self.m_nValues = 1 ∧
    (update_value (averageN (AverageN.init 60)
      (averageN (AverageN.init 60) null)) 42).self.m_i = 1 % 60 ∧
    (update_value (averageN (AverageN.init 60) (averageN (AverageN.init 60) null)) 42).value = 42 :=
  ⟨⟨by decide, by decide⟩,
    C6_update_value_on_empty 60 (by decide) (averageN (AverageN.init 60) null) 42 (by decide)⟩

/-- Narrowing to `uint8_t` does not increase a number. -/
theorem to_uint8_le (x : Nat) : to_uint8 x ≤ x := Nat.mod_le _ _

/-- Both `add_value` and `update_value` with an argument of at most `B` keep every
value on the chain at most `B`. -/
theorem Bounded_step (B : Nat) (hB : B ≤ 255) : ∀ t : Average, Bounded B t →
    ∀ v, v ≤ B → Bounded B (add_value t v).1 ∧ Bounded B (update_value t v) := by
  intro t
  induction t with
  | null => intro _ v _; rw [add_value, update_value]; exact ⟨trivial, trivial⟩
  | average1 x d ih =>
    intro h v hv
    rw [add_value_average1, update_value_average1]
    exact ⟨⟨hv, (ih h.2 v hv).1⟩, ⟨hv, (ih h.2 v hv).2⟩⟩
  | averageN a d ih =>
    intro h v hv
    obtain ⟨⟨vs, hvs, habs⟩, hd⟩ := h
    have hadd : Bounded B (add_value (averageN a d) v).1 := by
      have h1 := habs.after_add_value (show v < 256 by omega)
      have hvs1 : ∀ x ∈ vs ++ [v], x ≤ B := by
        intro x hx
        rcases List.mem_append.1 hx with hx | hx
        · exact hvs x hx
        · simp at hx; omega
      have hm : to_uint8 (a.add_value v).m_value ≤ B :=
        le_trans (to_uint8_le _) (h1.mean_le hvs1)
      rw [add_value_averageN]
      split
      · exact ⟨⟨_, hvs1, h1⟩, (ih hd _ hm).1⟩
      · exact ⟨⟨_, hvs1, h1⟩, (ih hd _ hm).2⟩
    refine ⟨hadd, ?_⟩
    rw [update_value_averageN]
    split
    · exact hadd
    · rename_i h0
      have hne := habs.ne_nil h0
      rcases List.eq_nil_or_concat vs with e | ⟨ini, w, e⟩
      · exact absurd e hne
      rw [List.concat_eq_append] at e
      subst e
      have h1 := habs.after_update_value (show v < 256 by omega)
      have hvs1 : ∀ x ∈ ini ++ [v], x ≤ B := by
        intro x hx
        rcases List.mem_append.1 hx with hx | hx
        · exact hvs x (List.mem_append_left _ hx)
        · simp at hx; omega
      have hm : to_uint8 (a.update_value v).m_value ≤ B :=
        le_trans (to_uint8_le _) (h1.mean_le hvs1)
      exact ⟨⟨_, hvs1, h1⟩, (ih hd _ hm).2⟩

/-- A sequence of `add_value` calls with arguments of at most `B` keeps every value
on the chain at most `B`. -/
theorem Bounded_add_values (B : Nat) (hB : B ≤ 255) (vs : List Nat) (hvs : ∀ v ∈ vs, v ≤ B) :
    ∀ t : Average, Bounded B t → Bounded B (add_values t vs) := by
  induction vs with
  | nil => intro t h; exact h
  | cons v vs ih =>
    intro t h
    exact ih (fun x hx => hvs x (by simp [hx])) _ ((Bounded_step B hB t h v (hvs v (by simp))).1)

/-- On a chain bounded by `B` the value of the first node is at most `B`. -/
theorem Bounded_value_le (B : Nat) (t : Average) (h : Bounded B t) : t.value ≤ B := by
  cases t with
  | null => exact Nat.zero_le _
  | average1 x d => exact le_trans (to_uint8_le _) h.1
  | averageN a d =>
    obtain ⟨⟨vs, hvs, habs⟩, _⟩ := h
    exact le_trans (to_uint8_le _) (habs.mean_le hvs)

/-- The dependants of a chain bounded by `B` form a chain bounded by `B`. -/
theorem Bounded_m_pDependant (B : Nat) (t : Average) (h : Bounded B t) :
    Bounded B t.m_pDependant := by
  cases t with
  | null => trivial
  | average1 x d => exact h.2
  | averageN a d => exact h.2

/-- The freshly constructed tree is bounded by any `B`. -/
theorem Bounded_fresh_tree (B : Nat) : Bounded B WorkerLoad.fresh_tree :=
  ⟨Nat.zero_le _, ⟨[], by simp, AverageN.Abs.of_init 60 (by norm_num) (by norm_num)⟩,
    ⟨[], by simp, AverageN.Abs.of_init 60 (by norm_num) (by norm_num)⟩, trivial⟩

/-- The averages of the tracker after a sequence of loads. -/
theorem add_loads_m_load_1_second (vs : List Nat) : ∀ w : WorkerLoad,
    (w.add_loads vs).m_load_1_second = add_values w.m_load_1_second vs := by
  induction vs with
  | nil => intro w; rfl
  | cons v vs ih =>
    intro w
    simp only [WorkerLoad.add_loads, List.foldl_cons, add_values] at ih ⊢
    rw [ih]; rfl

/-- C7: starting from the freshly constructed tracker, after any sequence of
`add_value` calls on `m_load_1_second` with arguments in `0..100`,
`percentage(counter)` lies in `0..100` for every `counter`, in particular for
`ONE_SECOND`, `ONE_MINUTE` and `ONE_HOUR`. -/
theorem C7_percentage_range (vs : List Nat) (hvs : ∀ v ∈ vs, v ≤ 100) (counter : Nat) :
    0 ≤ (WorkerLoad.init.add_loads vs).percentage counter ∧
    (WorkerLoad.init.add_loads vs).percentage counter ≤ 100 := by
  refine ⟨Nat.zero_le _, ?_⟩
  have hb : Bounded 100 (WorkerLoad.init.add_loads vs).m_load_1_second := by
    rw [add_loads_m_load_1_second]
    exact Bounded_add_values 100 (by norm_num) vs hvs _ (Bounded_fresh_tree 100)
  have hb1 := Bounded_m_pDependant _ _ hb
  have hb2 := Bounded_m_pDependant _ _ hb1
  unfold WorkerLoad.percentage
  split
  · exact Bounded_value_le _ _ hb
  · split
    · exact Bounded_value_le _ _ hb1
    · split
      · exact Bounded_value_le _ _ hb2
      · exact Nat.zero_le _

/-- Witness for C7: the loads 100, 0, 57, 100 and the counter `ONE_HOUR`. -/
theorem C7_percentage_range_witness :
    (∀ v ∈ [100, 0, 57, 100], v ≤ 100) ∧
    0 ≤ (WorkerLoad.init.add_loads [100, 0, 57, 100]).percentage ONE_HOUR ∧
    (WorkerLoad.init.add_loads [100, 0, 57, 100]).percentage ONE_HOUR ≤ 100 :=
  ⟨by decide, C7_percentage_range [100, 0, 57, 100] (by decide) ONE_HOUR⟩

/-- C8 (scenario S5): on the freshly constructed tracker, after the first load
sample of 100 `percentage(ONE_SECOND)` is 100; after three samples of 100
`percentage(ONE_SECOND)` is 100 and `percentage(ONE_MINUTE)` is at least 5 (it
is 100, the mean of the three samples held). -/
theorem C8_load_saturation :
    (WorkerLoad.init.add_loads [100]).percentage ONE_SECOND = 100 ∧
    (WorkerLoad.init.add_loads [100, 100, 100]).percentage ONE_SECOND = 100 ∧
    5 ≤ (WorkerLoad.init.add_loads [100, 100, 100]).percentage ONE_MINUTE ∧
    (WorkerLoad.init.add_loads [100, 100, 100]).percentage ONE_MINUTE = 100 := by
  simp [WorkerLoad.add_loads, WorkerLoad.add_load, WorkerLoad.init, WorkerLoad.fresh_tree,
    WorkerLoad.percentage, WorkerLoad.m_load_1_minute, ONE_SECOND, ONE_MINUTE, ONE_HOUR,
    add_value_average1, add_value_averageN, update_value_averageN, AverageN.add_value,
    AverageN.update_value, AverageN.init, AverageN.next, AverageN.prev, AverageN.deref,
    add32, sub32, to_uint8, add_value, update_value, value, m_value, m_pDependant]

end maxscale

namespace maxscale
namespace WorkerDisposableTask

/-- Reduction to `int32_t` commutes with addition. -/
theorem wrap_int32_add (x y : Int) : wrap_int32 (wrap_int32 x + y) = wrap_int32 (x + y) := by
  unfold wrap_int32; omega

/-- The task after `j + 1` calls is the task after `j` calls and the call number
`j`. -/
theorem calls_take_succ (t : WorkerDisposableTask) (cs : List Call) (j : Nat)
    (hj : j < cs.length) : t.calls (cs.take (j + 1)) = (t.calls (cs.take j)).call cs[j] := by
  unfold calls
  rw [List.take_succ, List.foldl_append, List.getElem?_eq_getElem hj]
  rfl

/-- Counting a call among the first `j + 1` calls. -/
theorem count_take_succ (cs : List Call) (j : Nat) (hj : j < cs.length) (x : Call) :
    (cs.take (j + 1)).count x = (cs.take j).count x + if cs[j] = x then 1 else 0 := by
  rw [List.take_succ, List.count_append, List.getElem?_eq_getElem hj]
  simp [List.count_singleton]

/-- While holders remain, the count is the number of `inc_count` calls minus the
number of `dec_count` calls, reduced to `int32_t`, and `delete this` has not been
executed. -/
theorem count_state (n : Nat) (hn2 : n ≤ 4294967296) (cs : List Call)
    (hinc : cs.count Call.inc_count = n)
    (hpre : ∀ j, 0 < j → j < cs.length →
      (cs.take j).count Call.dec_count < (cs.take j).count Call.inc_count) :
    ∀ j, j < cs.length →
      (init.calls (cs.take j)).m_count
        = wrap_int32 (((cs.take j).count Call.inc_count : Int)
            - ((cs.take j).count Call.dec_count : Int)) ∧
      (init.calls (cs.take j)).deleted = 0 := by
  intro j
  induction j with
  | zero => intro _; simp [calls, init, wrap_int32]
  | succ j ih =>
    intro hj
    have hj' : j < cs.length := by omega
    obtain ⟨h1, h2⟩ := ih hj'
    have hnext := hpre (j + 1) (by omega) hj
    have hle : (cs.take j).count Call.inc_count ≤ n := by
      rw [← hinc]; exact (List.take_sublist j cs).count_le _
    rw [calls_take_succ _ _ _ hj', count_take_succ _ _ hj', count_take_succ _ _ hj'] at *
    cases hc : cs[j] with
    | inc_count =>
      rw [hc] at hnext
      simp only [call, inc_count, atomic_add, h1, h2, wrap_int32_add, if_true,
        reduceCtorEq, if_false] at hnext ⊢
      refine ⟨?_, trivial⟩
      congr 1
      push_cast
      omega
    | dec_count =>
      rw [hc] at hnext
      simp only [reduceCtorEq, if_false, if_true, Nat.add_zero] at hnext
      have hold : wrap_int32 (((cs.take j).count Call.inc_count : Int)
            - ((cs.take j).count Call.dec_count : Int)) ≠ 1 := by
        unfold wrap_int32; omega
      simp only [call, dec_count, atomic_add, h1, h2, hold, wrap_int32_add, if_true,
        reduceCtorEq, if_false]
      refine ⟨?_, trivial⟩
      congr 1
      push_cast
      omega

/-- A sequence of calls consists of its `inc_count` and its `dec_count` calls. -/
theorem length_eq_counts (cs : List Call) :
    cs.length = cs.count Call.inc_count + cs.count Call.dec_count := by
  induction cs with
  | nil => rfl
  | cons c cs ih =>
    cases c <;> simp [List.count_cons, ih] <;> omega

/-- C9 (as amended): starting from a freshly constructed task (count 0), for
every `n` with `1 ≤ n ≤ 2^32` and every sequence of `n` calls of `inc_count` and
`n` calls of `dec_count` in which every proper non-empty initial part has
strictly more `inc_count` than `dec_count` calls, `delete this` is executed
exactly once over the whole sequence, not at all during any proper initial part,
and the last call is a `dec_count`: the final `dec_count` executes it. -/
theorem C9_disposable_destroyed_once (n : Nat) (hn1 : 1 ≤ n) (hn2 : n ≤ 4294967296)
    (cs : List Call) (hinc : cs.count Call.inc_count = n) (hdec : cs.count Call.dec_count = n)
    (hpre : ∀ j, 0 < j → j < cs.length →
      (cs.take j).count Call.dec_count < (cs.take j).count Call.inc_count) :
    (init.calls cs).deleted = 1 ∧
    (∀ j, j < cs.length → (init.calls (cs.take j)).deleted = 0) ∧
    cs.getLast? = some Call.dec_count := by
  have hlen := length_eq_counts cs
  rw [hinc, hdec] at hlen
  have hj : cs.length - 1 < cs.length := by omega
  have hst := count_state n hn2 cs hinc hpre
  obtain ⟨h1, h2⟩ := hst _ hj
  have hp := hpre (cs.length - 1) (by omega) hj
  have e : cs.length - 1 + 1 = cs.length := by omega
  have hci := count_take_succ cs _ hj Call.inc_count
  have hcd := count_take_succ cs _ hj Call.dec_count
  have hcalls := calls_take_succ init cs _ hj
  rw [e, List.take_length] at hci hcd hcalls
  rw [hinc] at hci
  rw [hdec] at hcd
  have hlast : cs[cs.length - 1] = Call.dec_count := by
    cases hc : cs[cs.length - 1] with
    | inc_count =>
      rw [hc] at hci hcd
      simp only [reduceCtorEq, if_false, if_true] at hci hcd
      omega
    | dec_count => rfl
  rw [hlast] at hci hcd hcalls
  simp only [reduceCtorEq, if_false, if_true, Nat.add_zero] at hci hcd
  refine ⟨?_, fun j hj => (hst j hj).2, ?_⟩
  · have hone : wrap_int32 (((cs.take (cs.length - 1)).count Call.inc_count : Int)
        - ((cs.take (cs.length - 1)).count Call.dec_count : Int)) = 1 := by
      unfold wrap_int32; omega
    rw [hcalls]
    simp only [call, dec_count, atomic_add, h1, h2, hone, if_true]
  · rw [List.getLast?_eq_getElem?, List.getElem?_eq_getElem hj, hlast]

/-- Witness for C9 (scenario S2): three `inc_count` followed by three
`dec_count`. -/
theorem C9_disposable_destroyed_once_witness :
    (1 ≤ 3 ∧ 3 ≤ 4294967296 ∧
      [Call.inc_count, Call.inc_count, Call.inc_count, Call.dec_count, Call.dec_count,
        Call.dec_count].count Call.inc_count = 3 ∧
      [Call.inc_count, Call.inc_count, Call.inc_count, Call.dec_count, Call.dec_count,
        Call.dec_count].count Call.dec_count = 3) ∧
    (init.calls [Call.inc_count, Call.inc_count, Call.inc_count, Call.dec_count, Call.dec_count,
        Call.dec_count]).deleted = 1 ∧
    (∀ j, j < [Call.inc_count, Call.inc_count, Call.inc_count, Call.dec_count, Call.dec_count,
        Call.dec_count].length →
      (init.calls ([Call.inc_count, Call.inc_count, Call.inc_count, Call.dec_count,
        Call.dec_count, Call.dec_count].take j)).deleted = 0) ∧
    [Call.inc_count, Call.inc_count, Call.inc_count, Call.dec_count, Call.dec_count,
        Call.dec_count].getLast? = some Call.dec_count :=
  ⟨⟨by decide, by decide, by decide, by decide⟩,
    C9_disposable_destroyed_once 3 (by decide) (by decide)
      [Call.inc_count, Call.inc_count, Call.inc_count, Call.dec_count, Call.dec_count,
        Call.dec_count] (by decide) (by decide) (by
        intro j h0 hj
        have hj6 : j < 6 := hj
        interval_cases j <;> decide)⟩

/-- The freshly constructed task after `k` calls of `inc_count`. -/
theorem calls_replicate_inc_count (k : Nat) :
    init.calls (List.replicate k Call.inc_count)
      = { m_count := wrap_int32 (k : Int), deleted := 0 } := by
  induction k with
  | zero => rfl
  | succ k ih =>
    rw [List.replicate_succ', calls, List.foldl_append]
    change (init.calls (List.replicate k Call.inc_count)).inc_count = _
    rw [ih]
    simp only [inc_count, atomic_add, wrap_int32_add]
    push_cast
    rfl

/-- The sequence of `n` calls of `inc_count` followed by `n` calls of `dec_count`
has `n` calls of each kind, and every proper non-empty initial part has more
`inc_count` than `dec_count` calls. -/
theorem stream_counts (n : Nat) :
    (List.replicate n Call.inc_count ++ List.replicate n Call.dec_count).count Call.inc_count = n ∧
    (List.replicate n Call.inc_count ++ List.replicate n Call.dec_count).count Call.dec_count = n ∧
    ∀ j, 0 < j →
      j < (List.replicate n Call.inc_count ++ List.replicate n Call.dec_count).length →
      ((List.replicate n Call.inc_count ++ List.replicate n Call.dec_count).take j).count
          Call.dec_count
        < ((List.replicate n Call.inc_count ++ List.replicate n Call.dec_count).take j).count
          Call.inc_count := by
  refine ⟨?_, ?_, ?_⟩
  · rw [List.count_append, List.count_replicate_self, List.count_replicate]; simp
  · rw [List.count_append, List.count_replicate_self, List.count_replicate]; simp
  · intro j h0 hj
    rw [List.length_append, List.length_replicate, List.length_replicate] at hj
    rw [List.take_append_eq_append_take, List.take_replicate, List.take_replicate,
      List.length_replicate, List.count_append, List.count_append, List.count_replicate_self,
      List.count_replicate_self, List.count_replicate, List.count_replicate]
    simp
    omega

/-- When `n` reduces to 1 as an `int32_t`, the first `dec_count` after `n` calls of
`inc_count` executes `delete this`. -/
theorem stream_early_delete (n : Nat) (hw : wrap_int32 (n : Int) = 1) :
    (init.calls ((List.replicate n Call.inc_count ++ List.replicate n Call.dec_count).take
      (n + 1))).deleted = 1 := by
  have hn : 1 ≤ n := by
    rcases Nat.eq_zero_or_pos n with h | h
    · subst h; simp [wrap_int32] at hw
    · exact h
  obtain ⟨m, rfl⟩ : ∃ m, n = m + 1 := ⟨n - 1, by omega⟩
  rw [List.take_append_eq_append_take, List.take_replicate, List.take_replicate,
    List.length_replicate]
  have e1 : min (m + 1 + 1) (m + 1) = m + 1 := by omega
  have e2 : min (m + 1 + 1 - (m + 1)) (m + 1) = 1 := by omega
  rw [e1, e2, calls, List.foldl_append]
  change ((init.calls (List.replicate (m + 1) Call.inc_count)).dec_count).deleted = 1
  rw [calls_replicate_inc_count]
  simp only [dec_count, atomic_add, hw, if_true]

/-- Counterexample to C9 as stated (every `n ≥ 1`): with `n = 2^32 + 1`, after
`n` calls of `inc_count` the 32-bit count has wrapped to 1, so the first of the
`n` calls of `dec_count` already executes `delete this`, although `n - 1` holders
remain. -/
theorem C9_counterexample :
    (1 ≤ 4294967297 ∧
      (List.replicate 4294967297 Call.inc_count
        ++ List.replicate 4294967297 Call.dec_count).count Call.inc_count = 4294967297 ∧
      (List.replicate 4294967297 Call.inc_count
        ++ List.replicate 4294967297 Call.dec_count).count Call.dec_count = 4294967297 ∧
      ∀ j, 0 < j →
        j < (List.replicate 4294967297 Call.inc_count
          ++ List.replicate 4294967297 Call.dec_count).length →
        ((List.replicate 4294967297 Call.inc_count
          ++ List.replicate 4294967297 Call.dec_count).take j).count Call.dec_count
        < ((List.replicate 4294967297 Call.inc_count
          ++ List.replicate 4294967297 Call.dec_count).take j).count Call.inc_count) ∧
    4294967297 + 1 < (List.replicate 4294967297 Call.inc_count
          ++ List.replicate 4294967297 Call.dec_count).length ∧
    (init.calls ((List.replicate 4294967297 Call.inc_count
        ++ List.replicate 4294967297 Call.dec_count).take (4294967297 + 1))).deleted = 1 :=
  ⟨⟨by norm_num, (stream_counts 4294967297).1, (stream_counts 4294967297).2.1,
      (stream_counts 4294967297).2.2⟩,
    by rw [List.length_append, List.length_replicate, List.length_replicate]; norm_num,
    stream_early_delete 4294967297 (by unfold wrap_int32; norm_num)⟩

end WorkerDisposableTask
end maxscale

namespace maxscale
open Average

/-- C10: for every `k` in `0..1000`, on a tracker whose period started
`1000` ms before `now` and whose waited time, once the wait interval is closed at
`now`, is `1000 - k` ms, `about_to_work(now)` leaves a 1-second load of
`100 * k / 1000`, which is within 1 of `100 * k / 1000` rounded to the nearest
integer, is 0 for `k = 0` and is 100 for `k = 1000`. -/
theorem C10_load_formula (k : Nat) (hk : k ≤ 1000) (w : WorkerLoad) (now : Nat)
    (hnow : now < 18446744073709551616) (hstart : w.m_start_time + 1000 = now)
    (hws : w.m_wait_start ≤ now) (hwait : w.m_wait_time + (now - w.m_wait_start) = 1000 - k)
    (x : Nat) (d : Average) (hroot : w.m_load_1_second = average1 x d) :
    (w.about_to_work now).percentage ONE_SECOND = 100 * k / 1000 ∧
    (w.about_to_work now).percentage ONE_SECOND ≤ (100 * k + 500) / 1000 + 1 ∧
    (100 * k + 500) / 1000 ≤ (w.about_to_work now).percentage ONE_SECOND + 1 ∧
    (k = 0 → (w.about_to_work now).percentage ONE_SECOND = 0) ∧
    (k = 1000 → (w.about_to_work now).percentage ONE_SECOND = 100) := by
  have he : sub64 now w.m_start_time = 1000 := by unfold sub64; omega
  have hw : add64 w.m_wait_time (sub64 now w.m_wait_start) = 1000 - k := by
    unfold add64 sub64; omega
  have hload : clamp_percentage (100 * (((1000 : Nat) : Int) - ((1000 - k : Nat) : Int))
      / ((1000 : Nat) : Int)) = 100 * k / 1000 := by
    unfold clamp_percentage
    have e : (((1000 : Nat) : Int) - ((1000 - k : Nat) : Int)) = (k : Int) := by omega
    rw [e]
    have hq : (100 * (k : Int) / ((1000 : Nat) : Int)) = ((100 * k / 1000 : Nat) : Int) := by
      push_cast; rfl
    rw [hq]
    omega
  have hp : (w.about_to_work now).percentage ONE_SECOND = 100 * k / 1000 := by
    unfold WorkerLoad.about_to_work
    simp only [he, hw, GRANULARITY, ONE_SECOND, ge_iff_le, le_refl, if_true, hload,
      WorkerLoad.percentage, hroot, add_value_average1, value, m_value, to_uint8]
    omega
  rw [hp]
  refine ⟨rfl, by omega, by omega, by intro h; omega, by intro h; omega⟩

/-- Witness for C10: the period starts at 5000, the worker works 250 ms, waits
from 5250 and `about_to_work` is called at 6000: the load is 25. -/
theorem C10_load_formula_witness :
    (250 ≤ 1000 ∧ 6000 < 18446744073709551616) ∧
    (WorkerLoad.about_to_work
      { m_start_time := 5000, m_wait_start := 5250, m_wait_time := 0,
        m_load_1_second := WorkerLoad.fresh_tree } 6000).percentage ONE_SECOND = 100 * 250 / 1000 :=
  ⟨⟨by decide, by decide⟩,
    (C10_load_formula 250 (by decide)
      { m_start_time := 5000, m_wait_start := 5250, m_wait_time := 0,
        m_load_1_second := WorkerLoad.fresh_tree } 6000 (by decide) (by decide) (by decide)
      (by decide) 0 _ rfl).1⟩

end maxscale

namespace maxscale

/-- C11: for every tracker state and every `now`, `about_to_wait(now)` sets the
wait-start field to `now` and changes nothing else: `start_time()`, the
accumulated wait time and the three averages are as before, hence
`percentage(c)` is as before for every `c`. -/
theorem C11_about_to_wait_frame (w : WorkerLoad) (now : Nat) :
    (w.about_to_wait now).m_wait_start = now ∧
    (w.about_to_wait now).start_time = w.start_time ∧
    (w.about_to_wait now).m_wait_time = w.m_wait_time ∧
    (w.about_to_wait now).m_load_1_second = w.m_load_1_second ∧
    (w.about_to_wait now).m_load_1_minute = w.m_load_1_minute ∧
    (w.about_to_wait now).m_load_1_hour = w.m_load_1_hour ∧
    ∀ c, (w.about_to_wait now).percentage c = w.percentage c :=
  ⟨rfl, rfl, rfl, rfl, rfl, rfl, fun _ => rfl⟩

namespace WorkerDisposableTask

/-- C12 (as amended): a newly constructed task has count 0 and is not destroyed;
on a task whose count is an `int32_t`, `inc_count` raises the count by exactly 1
when the count is below 2147483647 and never executes `delete this`;
`dec_count` lowers the count by exactly 1 when the count is above -2147483648
and executes `delete this` if and only if the count before the call was exactly
1. -/
theorem C12_count_steps (t : WorkerDisposableTask) (hlo : -2147483648 ≤ t.m_count)
    (hhi : t.m_count ≤ 2147483647) :
    init.m_count = 0 ∧ init.deleted = 0 ∧
    (t.m_count < 2147483647 → t.inc_count.m_count = t.m_count + 1) ∧
    t.inc_count.deleted = t.deleted ∧
    (-2147483648 < t.m_count → t.dec_count.m_count = t.m_count - 1) ∧
    (t.dec_count.deleted = t.deleted + 1 ↔ t.m_count = 1) ∧
    (t.m_count ≠ 1 → t.dec_count.deleted = t.deleted) := by
  refine ⟨rfl, rfl, ?_, rfl, ?_, ?_, ?_⟩
  · intro h
    simp only [inc_count, atomic_add, wrap_int32]
    omega
  · intro h
    unfold dec_count
    split <;> (simp only [atomic_add, wrap_int32]; omega)
  · unfold dec_count
    simp only [atomic_add]
    split
    · rename_i h; simp [h]
    · rename_i h; simp [h]
  · intro h
    unfold dec_count
    simp only [atomic_add]
    rw [if_neg h]

/-- Witness for C12: a task with count 2 and no destruction so far. -/
theorem C12_count_steps_witness :
    ((-2147483648 : Int) ≤ 2 ∧ (2 : Int) ≤ 2147483647) ∧
    (inc_count { m_count := 2, deleted := 0 }).m_count = 3 ∧
    (dec_count { m_count := 2, deleted := 0 }).m_count = 1 ∧
    (dec_count { m_count := 2, deleted := 0 }).deleted = 0 :=
  have h := C12_count_steps { m_count := 2, deleted := 0 } (by decide) (by decide)
  ⟨⟨by decide, by decide⟩, h.2.2.1 (by decide), h.2.2.2.2.1 (by decide),
    h.2.2.2.2.2.2 (by decide)⟩

/-- Counterexample to C12 as stated (`inc_count` raises the count by exactly 1):
after 2147483647 calls of `inc_count` on a new task the count is 2147483647, and
one more `inc_count` leaves -2147483648, not 2147483648. -/
theorem C12_counterexample :
    (init.calls (List.replicate 2147483647 Call.inc_count)).m_count = 2147483647 ∧
    (init.calls (List.replicate 2147483647 Call.inc_count)).inc_count.m_count
      = -2147483648 := by
  rw [calls_replicate_inc_count]
  constructor
  · show wrap_int32 _ = _
    unfold wrap_int32; norm_num
  · show (atomic_add (wrap_int32 _) 1).1 = _
    unfold atomic_add wrap_int32; norm_num

end WorkerDisposableTask
end maxscale

/-! ## Reachable states of an `AverageN<N>`: representation, exact sums, safety -/

namespace maxscale
open Average

/-- The sum of the stored samples is the sum over the cells, an unassigned cell
counting as 0. -/
theorem sum_filterMap_id (l : List (Option Nat)) :
    (l.filterMap id).sum = (l.map (fun c => c.getD 0)).sum := by
  induction l with
  | nil => rfl
  | cons c l ih =>
    cases c with
    | none => simpa using ih
    | some x => simp [List.filterMap_cons, ih]

/-- Assigning a cell adds one stored sample when the cell was unassigned and
none otherwise. -/
theorem length_filterMap_set (l : List (Option Nat)) (i v : Nat) (hi : i < l.length) :
    ((l.set i (some v)).filterMap id).length
      = (l.filterMap id).length + (if l[i]? = some none then 1 else 0) := by
  induction l generalizing i with
  | nil => simp at hi
  | cons c l ih =>
    cases i with
    | zero =>
      cases c with
      | none => simp [List.filterMap_cons]
      | some x => simp [List.filterMap_cons]
    | succ i =>
      simp only [List.length_cons, Nat.add_lt_add_iff_right] at hi
      have := ih i hi
      cases c with
      | none => simpa [List.filterMap_cons] using this
      | some x => simp only [List.set_cons_succ, List.filterMap_cons, id, List.length_cons,
          List.getElem?_cons_succ, this]; omega

namespace AverageN

/-- The sum of the stored samples, cell by cell or over the list of them. -/
theorem stored_sum_eq (a : AverageN) : a.stored_sum = a.stored.sum := by
  unfold stored_sum stored
  exact (sum_filterMap_id _).symm

/-- The freshly constructed node stores no sample. -/
theorem stored_init (N : Nat) : (AverageN.init N).stored = [] := by
  unfold stored AverageN.init
  simp only
  induction N with
  | zero => rfl
  | succ n ih => rw [List.replicate_succ, List.filterMap_cons]; exact ih

/-- After `add_value` the number of stored samples is still the count. -/
theorem Abs.stored_after_add_value {a : AverageN} {vs : List Nat} (h : Abs a vs)
    (hs : a.stored.length = a.m_nValues) (v : Nat) :
    (a.add_value v).stored.length = (a.add_value v).m_nValues := by
  have hpos := h.pos
  have hcap := h.cap
  have hcur : a.m_i < a.m_begin.length := by rw [h.len, h.cur]; exact Nat.mod_lt _ hpos
  have hcell := h.cursor_cell
  unfold AverageN.stored at hs ⊢
  rw [add_value_m_begin, add_value_m_nValues, length_filterMap_set _ _ _ hcur, hcell, hs, h.cnt]
  by_cases hk : a.N ≤ vs.length
  · have h2 : vs.length - a.N < vs.length := by omega
    rw [if_pos hk, List.getElem?_eq_getElem h2, if_neg (by simp), if_pos (by omega)]
    omega
  · rw [if_neg hk, if_pos rfl, if_neg (by omega)]
    have : min vs.length a.N + 1 < 4294967296 := by omega
    rw [Nat.mod_eq_of_lt this]

/-- After `update_value` on a node with samples the number of stored samples is
still the count. -/
theorem Abs.stored_after_update_value {a : AverageN} {ini : List Nat} {w : Nat}
    (h : Abs a (ini ++ [w])) (hs : a.stored.length = a.m_nValues) (v : Nat) :
    (a.update_value v).stored.length = (a.update_value v).m_nValues := by
  have hpos := h.pos
  have hp := h.prev_cursor
  have hplt : ini.length % a.N < a.m_begin.length := by rw [h.len]; exact Nat.mod_lt _ hpos
  have hcell : a.m_begin[ini.length % a.N]? = some (some w) := by
    have := h.cells ini.length (by simp; omega) (Or.inl (by simp))
    rw [this]; simp
  unfold AverageN.stored at hs ⊢
  rw [update_value_m_begin, update_value_m_nValues, hp, length_filterMap_set _ _ _ hplt, hcell,
    hs, if_neg (by simp)]
  rfl

end AverageN

/-- Every state reached by calls with 8-bit arguments from a node that represents
a sequence and stores as many samples as its count is again such a node, of the
same capacity. -/
theorem calls_rep (cs : List Call) (hcs : ∀ c ∈ cs, c.arg < 256) :
    ∀ (a : AverageN) (d : Average) (us : List Nat), a.Abs us →
      a.stored.length = a.m_nValues →
      ∃ a' d' us', calls (averageN a d) cs = averageN a' d' ∧ a'.Abs us' ∧
        a'.stored.length = a'.m_nValues ∧ a'.N = a.N := by
  induction cs with
  | nil => intro a d us h hs; exact ⟨a, d, us, rfl, h, hs, rfl⟩
  | cons c cs ih =>
    intro a d us h hs
    have hc : c.arg < 256 := hcs c (by simp)
    have hrest : ∀ c ∈ cs, c.arg < 256 := fun x hx => hcs x (by simp [hx])
    cases c with
    | add_value v =>
      change v < 256 at hc
      obtain ⟨d1, h1⟩ := add_value_root a d v
      obtain ⟨a', d', us', e, habs, hst, hn⟩ :=
        ih hrest (a.add_value v) d1 _ (h.after_add_value hc) (h.stored_after_add_value hs v)
      refine ⟨a', d', us', ?_, habs, hst, by rw [hn, AverageN.add_value_N]⟩
      simp only [calls, List.foldl_cons, call] at e ⊢
      rw [h1, e]
    | update_value v =>
      change v < 256 at hc
      obtain ⟨d1, h1⟩ := update_value_root a d v
      by_cases h0 : a.m_nValues = 0
      · rw [if_pos h0] at h1
        obtain ⟨a', d', us', e, habs, hst, hn⟩ :=
          ih hrest (a.add_value v) d1 _ (h.after_add_value hc) (h.stored_after_add_value hs v)
        refine ⟨a', d', us', ?_, habs, hst, by rw [hn, AverageN.add_value_N]⟩
        simp only [calls, List.foldl_cons, call] at e ⊢
        rw [h1, e]
      · rw [if_neg h0] at h1
        have hne := h.ne_nil h0
        rcases List.eq_nil_or_concat us with e0 | ⟨ini, w, e0⟩
        · exact absurd e0 hne
        rw [List.concat_eq_append] at e0
        subst e0
        obtain ⟨a', d', us', e, habs, hst, hn⟩ :=
          ih hrest (a.update_value v) d1 _ (h.after_update_value hc)
            (h.stored_after_update_value hs v)
        refine ⟨a', d', us', ?_, habs, hst, by rw [hn]; rfl⟩
        simp only [calls, List.foldl_cons, call] at e ⊢
        rw [h1, e]

/-- Every state reached from the empty node of capacity `N`, `1 ≤ N < 2^32`, by
calls with 8-bit arguments is an `AverageN<N>` that represents a sequence of
samples and stores as many samples as its count. -/
theorem reachable_rep (N : Nat) (hN : 1 ≤ N) (hcap : N < 4294967296) (dep : Average)
    (cs : List Call) (hcs : ∀ c ∈ cs, c.arg < 256) :
    ∃ a d vs, calls (averageN (AverageN.init N) dep) cs = averageN a d ∧ a.Abs vs ∧
      a.stored.length = a.m_nValues ∧ a.N = N := by
  obtain ⟨a, d, vs, e, habs, hst, hn⟩ := calls_rep cs hcs (AverageN.init N) dep []
    (AverageN.Abs.of_init N hN hcap) (by rw [AverageN.stored_init]; rfl)
  exact ⟨a, d, vs, e, habs, hst, hn⟩

end maxscale

namespace maxscale
open Average

namespace AverageN

/-- The count never exceeds the capacity. -/
theorem Abs.count_le {a : AverageN} {vs : List Nat} (h : Abs a vs) : a.m_nValues ≤ a.N := by
  rw [h.cnt]; exact Nat.min_le_right _ _

/-- The cursor is inside the buffer. -/
theorem Abs.cursor_lt {a : AverageN} {vs : List Nat} (h : Abs a vs) : a.m_i < a.N := by
  rw [h.cur]; exact Nat.mod_lt _ h.pos

/-- Until the buffer is full the cursor is the count. -/
theorem Abs.cursor_eq_count {a : AverageN} {vs : List Nat} (h : Abs a vs)
    (hlt : a.m_nValues < a.N) : a.m_i = a.m_nValues := by
  have hc := h.cnt
  have hk : vs.length < a.N := by omega
  rw [h.cur, hc, Nat.mod_eq_of_lt hk]
  omega

/-- The buffer is full exactly when at least `N` samples were appended. -/
theorem Abs.full_iff {a : AverageN} {vs : List Nat} (h : Abs a vs) :
    a.m_nValues = a.N ↔ a.N ≤ vs.length := by
  rw [h.cnt]; omega

/-- The value read under the cursor is the sample about to leave the window. -/
theorem Abs.deref_cursor {a : AverageN} {vs : List Nat} (h : Abs a vs) :
    a.deref a.m_i = (if a.N ≤ vs.length then vs[vs.length - a.N]?.getD 0 else 0) := by
  unfold deref; rw [h.cursor_cell]; split <;> simp

/-- The cell before the cursor holds the most recent sample. -/
theorem Abs.prev_cell {a : AverageN} {ini : List Nat} {w : Nat} (h : Abs a (ini ++ [w])) :
    a.m_begin[a.prev a.m_i]? = some (some w) := by
  have hpos := h.pos
  have := h.cells ini.length (by simp; omega) (Or.inl (by simp))
  rw [h.prev_cursor, this]; simp

/-- When `255 * N < 2^32` the window sum fits in 32 bits. -/
theorem Abs.window_lt {a : AverageN} {vs : List Nat} (h : Abs a vs)
    (hN : 255 * a.N < 4294967296) : (window a.N vs).sum < 4294967296 := by
  have hB : ∀ x ∈ vs, x ≤ 255 := fun x hx => by have := h.byte x hx; omega
  have h1 := window_sum_le a.N vs 255 hB
  have : min vs.length a.N * 255 ≤ a.N * 255 := Nat.mul_le_mul_right _ (Nat.min_le_right _ _)
  omega

/-- When `255 * N < 2^32` the running sum is the sum of the stored samples. -/
theorem Abs.sum_exact {a : AverageN} {vs : List Nat} (h : Abs a vs)
    (hN : 255 * a.N < 4294967296) :
    a.m_sum = a.stored.sum ∧ a.m_sum ≤ 255 * a.N := by
  have hlt := h.window_lt hN
  have hB : ∀ x ∈ vs, x ≤ 255 := fun x hx => by have := h.byte x hx; omega
  have h1 := window_sum_le a.N vs 255 hB
  have h2 : min vs.length a.N * 255 ≤ a.N * 255 := Nat.mul_le_mul_right _ (Nat.min_le_right _ _)
  rw [← stored_sum_eq, h.stored, h.sum, Nat.mod_eq_of_lt hlt]
  exact ⟨rfl, by omega⟩

/-- When `255 * N < 2^32` neither `m_sum -= *m_i` nor `m_sum += *m_i` of
`add_value` wraps. -/
theorem Abs.add_value_exact {a : AverageN} {vs : List Nat} (h : Abs a vs)
    (hN : 255 * a.N < 4294967296) {v : Nat} (hv : v < 256) :
    (if a.m_nValues = a.N then a.deref a.m_i else 0) ≤ a.m_sum ∧
    a.m_sum - (if a.m_nValues = a.N then a.deref a.m_i else 0) + v < 4294967296 ∧
    (a.add_value v).m_sum = a.m_sum - (if a.m_nValues = a.N then a.deref a.m_i else 0) + v := by
  obtain ⟨r, hr1, hr2⟩ := window_snoc a.N h.pos vs v
  have h' := h.after_add_value hv
  have hlt := h.window_lt hN
  have hlt' := h'.window_lt (by rw [add_value_N]; exact hN)
  rw [add_value_N] at hlt'
  have hs' := h'.sum
  rw [add_value_N, Nat.mod_eq_of_lt hlt', hr2] at hs'
  have hs := h.sum
  rw [Nat.mod_eq_of_lt hlt, hr1] at hs
  have hold : (if a.m_nValues = a.N then a.deref a.m_i else 0)
      = (if a.N ≤ vs.length then vs[vs.length - a.N]?.getD 0 else 0) := by
    rw [h.deref_cursor]
    by_cases hk : a.N ≤ vs.length
    · rw [if_pos (h.full_iff.2 hk)]
    · rw [if_neg (fun e => hk (h.full_iff.1 e)), if_neg hk]
  rw [hold, hs, hs']
  rw [hr2] at hlt'
  omega

/-- When `255 * N < 2^32` neither `m_sum -= *p` nor `m_sum += *p` of
`update_value` wraps. -/
theorem Abs.update_value_exact {a : AverageN} {ini : List Nat} {w : Nat}
    (h : Abs a (ini ++ [w])) (hN : 255 * a.N < 4294967296) {v : Nat} (hv : v < 256) :
    a.deref (a.prev a.m_i) ≤ a.m_sum ∧
    a.m_sum - a.deref (a.prev a.m_i) + v < 4294967296 ∧
    (a.update_value v).m_sum = a.m_sum - a.deref (a.prev a.m_i) + v := by
  obtain ⟨r, hr⟩ := window_last a.N h.pos ini
  have h' := h.after_update_value hv
  have hlt := h.window_lt hN
  have hlt' := h'.window_lt (by rw [update_value_N]; exact hN)
  rw [update_value_N] at hlt'
  have hs' := h'.sum
  rw [update_value_N, Nat.mod_eq_of_lt hlt', hr v] at hs'
  have hs := h.sum
  rw [Nat.mod_eq_of_lt hlt, hr w] at hs
  have hold : a.deref (a.prev a.m_i) = w := by
    unfold deref; rw [h.prev_cell]; rfl
  rw [hold, hs, hs']
  rw [hr v] at hlt'
  omega

/-- Everything `add_value` relies on holds in a state that represents a
sequence. -/
theorem Abs.add_value_safe_of {a : AverageN} {vs : List Nat} (h : Abs a vs) (v : Nat) :
    a.add_value_safe v := by
  have hpos := h.pos
  have hcap := h.cap
  refine ⟨fun hfull => ?_, h.cursor_lt, ?_, ?_⟩
  · have hk := h.full_iff.1 hfull
    have h2 : vs.length - a.N < vs.length := by omega
    unfold written
    rw [h.cursor_cell, if_pos hk, List.getElem?_eq_getElem h2]
    rfl
  · have := h.cursor_lt
    unfold next
    simp only
    split <;> omega
  · rw [add_value_m_nValues, h.cnt]
    split
    · omega
    · have : min vs.length a.N + 1 < 4294967296 := by omega
      rw [Nat.mod_eq_of_lt this]; omega

/-- Everything `update_value` relies on holds in a state that represents a
sequence. -/
theorem Abs.update_value_safe_of {a : AverageN} {vs : List Nat} (h : Abs a vs) (v : Nat) :
    a.update_value_safe v := by
  unfold update_value_safe
  split
  · exact h.add_value_safe_of v
  · rename_i h0
    have hne := h.ne_nil h0
    rcases List.eq_nil_or_concat vs with e0 | ⟨ini, w, e0⟩
    · exact absurd e0 hne
    rw [List.concat_eq_append] at e0
    subst e0
    refine ⟨h.cursor_lt, ?_, ?_, h0⟩
    · rw [h.prev_cursor]; exact Nat.mod_lt _ h.pos
    · unfold written; rw [h.prev_cell]; rfl

end AverageN
end maxscale

namespace maxscale
open Average

/-- The node of capacity `n` after `n` equal samples `c` represents these `n`
samples. -/
theorem const_stream_node (n c : Nat) (h1 : 1 ≤ n) (h2 : n < 4294967296) (hc : c < 256)
    (dep : Average) :
    ∃ a d, calls (averageN (AverageN.init n) dep) (List.replicate n (Call.add_value c))
        = averageN a d ∧ a.Abs (List.replicate n c) ∧ a.N = n ∧
      (window n (List.replicate n c)).sum = n * c := by
  rw [calls_replicate_add_value]
  obtain ⟨a, d, he, ha, hn⟩ := add_values_abs n h1 h2 (List.replicate n c)
    (fun v hv => by rw [List.eq_of_mem_replicate hv]; exact hc) dep
  refine ⟨a, d, he, ha, hn, ?_⟩
  unfold window
  rw [List.length_replicate, Nat.sub_self, List.drop_zero, List.sum_replicate, smul_eq_mul]

/-- The running sum and the sum of the stored samples of the node of capacity `n`
after `n` equal samples `c`. -/
theorem const_stream_sums (n c : Nat) (h1 : 1 ≤ n) (h2 : n < 4294967296) (hc : c < 256)
    (dep : Average) :
    (calls (averageN (AverageN.init n) dep) (List.replicate n (Call.add_value c))).self.m_sum
      = (n * c) % 4294967296 ∧
    (calls (averageN (AverageN.init n) dep)
      (List.replicate n (Call.add_value c))).self.stored.sum = n * c := by
  obtain ⟨a, d, he, ha, hn, hw⟩ := const_stream_node n c h1 h2 hc dep
  rw [he]
  show a.m_sum = _ ∧ a.stored.sum = _
  rw [← AverageN.stored_sum_eq, ha.stored, ha.sum, hn, hw]
  exact ⟨rfl, rfl⟩

/-- C15 (as amended): for every `N` with `1 ≤ N < 2^32`, every state `a` of an
`AverageN<N>` reached from the empty node by calls of `add_value` and
`update_value` with 8-bit arguments satisfies: the count is at most `N`, the
cursor is below `N`, the cursor equals the count whenever the count is below `N`,
and the number of stored samples is the count.  If moreover `255 * N < 2^32`, the
running sum is the sum of the stored samples, it is at most `255 * N`, and in the
next call, `add_value(v)` or `update_value(v)` with an 8-bit `v`, neither the
subtraction from `m_sum` nor the addition to it wraps around in 32 bits. -/
theorem C15_representation_invariant (N : Nat) (hN : 1 ≤ N) (hcap : N < 4294967296)
    (dep : Average) (cs : List Call) (hcs : ∀ c ∈ cs, c.arg < 256) (a : AverageN)
    (ha : a = (calls (averageN (AverageN.init N) dep) cs).self) :
    a.m_nValues ≤ N ∧ a.m_i < N ∧ (a.m_nValues < N → a.m_i = a.m_nValues) ∧
    a.stored.length = a.m_nValues ∧
    (255 * N < 4294967296 →
      a.m_sum = a.stored.sum ∧ a.m_sum ≤ 255 * N ∧
      ∀ v, v < 256 →
        ((if a.m_nValues = a.N then a.deref a.m_i else 0) ≤ a.m_sum ∧
          a.m_sum - (if a.m_nValues = a.N then a.deref a.m_i else 0) + v < 4294967296 ∧
          (a.add_value v).m_sum
            = a.m_sum - (if a.m_nValues = a.N then a.deref a.m_i else 0) + v) ∧
        (a.m_nValues ≠ 0 →
          a.deref (a.prev a.m_i) ≤ a.m_sum ∧
          a.m_sum - a.deref (a.prev a.m_i) + v < 4294967296 ∧
          (a.update_value v).m_sum = a.m_sum - a.deref (a.prev a.m_i) + v)) := by
  obtain ⟨b, d, vs, e, habs, hst, hn⟩ := reachable_rep N hN hcap dep cs hcs
  rw [e] at ha
  change a = b at ha
  subst ha
  refine ⟨by rw [← hn]; exact habs.count_le, by rw [← hn]; exact habs.cursor_lt,
    fun h => habs.cursor_eq_count (by rw [hn]; exact h), hst, fun hsmall => ?_⟩
  have hsmall' : 255 * a.N < 4294967296 := by rw [hn]; exact hsmall
  have hsum := habs.sum_exact hsmall'
  refine ⟨hsum.1, by rw [← hn]; exact hsum.2, fun v hv => ⟨habs.add_value_exact hsmall' hv, ?_⟩⟩
  intro h0
  have hne := habs.ne_nil h0
  rcases List.eq_nil_or_concat vs with e0 | ⟨ini, w, e0⟩
  · exact absurd e0 hne
  rw [List.concat_eq_append] at e0
  subst e0
  exact habs.update_value_exact hsmall' hv

/-- Witness for C15: capacity 3 and the calls `add_value(10)`, `add_value(20)`,
`update_value(30)`, `add_value(40)`, `add_value(50)`. -/
theorem C15_representation_invariant_witness :
    (1 ≤ 3 ∧ 3 < 4294967296 ∧
      ∀ c ∈ [Call.add_value 10, Call.add_value 20, Call.update_value 30, Call.add_value 40,
        Call.add_value 50], c.arg < 256) ∧
    (calls (averageN (AverageN.init 3) null)
      [Call.add_value 10, Call.add_value 20, Call.update_value 30, Call.add_value 40,
        Call.add_value 50]).self.m_nValues ≤ 3 ∧
    (calls (averageN (AverageN.init 3) null)
      [Call.add_value 10, Call.add_value 20, Call.update_value 30, Call.add_value 40,
        Call.add_value 50]).self.m_i < 3 :=
  have h := C15_representation_invariant 3 (by decide) (by decide) null
    [Call.add_value 10, Call.add_value 20, Call.update_value 30, Call.add_value 40,
      Call.add_value 50] (by decide) _ rfl
  ⟨⟨by decide, by decide, by decide⟩, h.1, h.2.1⟩

/-- Counterexample to C15 as stated (every `N ≥ 1`): in the `AverageN<N>` with
`N = 16843010` that received `N` times `add_value(255)` the running sum is 254
while the stored samples add up to `255 * N = 4294967550`: the last addition to
`m_sum` wrapped around. -/
theorem C15_counterexample :
    (calls (averageN (AverageN.init 16843010) null)
      (List.replicate 16843010 (Call.add_value 255))).self.m_sum = 254 ∧
    (calls (averageN (AverageN.init 16843010) null)
      (List.replicate 16843010 (Call.add_value 255))).self.stored.sum = 4294967550 :=
  have h := const_stream_sums 16843010 255 (by norm_num) (by norm_num) (by norm_num) null
  ⟨h.1.trans (by norm_num), h.2.trans (by norm_num)⟩

/-- C16 (as amended): for every `N` with `1 ≤ N < 2^32`, in every state of an
`AverageN<N>` reached from the empty node by calls of `add_value` and
`update_value` with 8-bit arguments, the next call of `add_value` and the next
call of `update_value` find what they rely on: the divisor `m_nValues` is not
zero, the `ss_dassert` lines of `prev` and `next` hold, and the cell read for
eviction or replacement has been assigned by an earlier call. -/
theorem C16_safety (N : Nat) (hN : 1 ≤ N) (hcap : N < 4294967296) (dep : Average)
    (cs : List Call) (hcs : ∀ c ∈ cs, c.arg < 256) (v : Nat) :
    (calls (averageN (AverageN.init N) dep) cs).self.add_value_safe v ∧
    (calls (averageN (AverageN.init N) dep) cs).self.update_value_safe v := by
  obtain ⟨b, d, vs, e, habs, _, _⟩ := reachable_rep N hN hcap dep cs hcs
  rw [e]
  exact ⟨habs.add_value_safe_of v, habs.update_value_safe_of v⟩

/-- Witness for C16: capacity 3 and the calls `update_value(10)`,
`add_value(20)`, `add_value(30)`, `add_value(40)`. -/
theorem C16_safety_witness :
    (1 ≤ 3 ∧ 3 < 4294967296 ∧
      ∀ c ∈ [Call.update_value 10, Call.add_value 20, Call.add_value 30, Call.add_value 40],
        c.arg < 256) ∧
    (calls (averageN (AverageN.init 3) null)
      [Call.update_value 10, Call.add_value 20, Call.add_value 30,
        Call.add_value 40]).self.add_value_safe 50 ∧
    (calls (averageN (AverageN.init 3) null)
      [Call.update_value 10, Call.add_value 20, Call.add_value 30,
        Call.add_value 40]).self.update_value_safe 50 :=
  ⟨⟨by decide, by decide, by decide⟩,
    C16_safety 3 (by decide) (by decide) null
      [Call.update_value 10, Call.add_value 20, Call.add_value 30, Call.add_value 40]
      (by decide) 50⟩

/-- While the count stays below the capacity and below `2^32`, each `add_value`
raises it by one. -/
theorem count_below_capacity (vs : List Nat) : ∀ a : AverageN,
    a.m_nValues + vs.length ≤ a.N → a.m_nValues + vs.length < 4294967296 →
    (vs.foldl AverageN.add_value a).m_nValues = a.m_nValues + vs.length := by
  induction vs with
  | nil => intro a _ _; rfl
  | cons v vs ih =>
    intro a h1 h2
    simp only [List.length_cons] at h1 h2
    have hstep : (a.add_value v).m_nValues = a.m_nValues + 1 := by
      rw [AverageN.add_value_m_nValues, if_neg (by omega), Nat.mod_eq_of_lt (by omega)]
    rw [List.foldl_cons, ih _ (by rw [hstep, AverageN.add_value_N]; omega) (by rw [hstep]; omega),
      hstep, List.length_cons]
    omega

/-- The count of the node of capacity `n` after `k` equal samples, `k ≤ n` and
`k < 2^32`. -/
theorem const_stream_count (n k c : Nat) (hk : k ≤ n) (hk2 : k < 4294967296) (dep : Average) :
    ∃ a d, calls (averageN (AverageN.init n) dep) (List.replicate k (Call.add_value c))
        = averageN a d ∧ a.m_nValues = k ∧ a.N = n := by
  rw [calls_replicate_add_value]
  obtain ⟨d, hd⟩ := add_values_root (List.replicate k c) (AverageN.init n) dep
  refine ⟨_, d, hd, ?_, foldl_add_value_N _ _⟩
  have := count_below_capacity (List.replicate k c) (AverageN.init n)
    (by simp [AverageN.init]; exact hk) (by simp [AverageN.init]; exact hk2)
  rw [this]
  simp [AverageN.init]

/-- The divisor of the next `add_value` on the node of capacity `n` after
`2^32 - 1` samples, `n ≥ 2^32`. -/
theorem const_stream_divisor (n c v : Nat) (hn : 4294967296 ≤ n) (dep : Average) :
    ((calls (averageN (AverageN.init n) dep)
      (List.replicate 4294967295 (Call.add_value c))).self.add_value v).m_nValues = 0 := by
  obtain ⟨a, d, he, hcnt, hN⟩ := const_stream_count n 4294967295 c (by omega) (by norm_num) dep
  rw [he]
  show (a.add_value v).m_nValues = 0
  rw [AverageN.add_value_m_nValues, hcnt, hN, if_neg (by omega)]

/-- Counterexample to C16 as stated (every `N ≥ 1`): in the `AverageN<N>` with
`N = 2^32` that received `2^32 - 1` times `add_value(0)`, the next `add_value`
raises the 32-bit count from `2^32 - 1` to 0 and divides `m_sum` by it. -/
theorem C16_counterexample :
    ((calls (averageN (AverageN.init 4294967296) null)
      (List.replicate 4294967295 (Call.add_value 0))).self.add_value 0).m_nValues = 0 :=
  const_stream_divisor 4294967296 0 0 (by norm_num) null

end maxscale

namespace maxscale
open Average

/-- The fold of `min` is below its start value and below every element. -/
theorem foldl_min_le (l : List Nat) : ∀ init : Nat,
    l.foldl min init ≤ init ∧ ∀ x ∈ l, l.foldl min init ≤ x := by
  induction l with
  | nil => intro init; exact ⟨le_refl _, fun x hx => by simp at hx⟩
  | cons y l ih =>
    intro init
    obtain ⟨h1, h2⟩ := ih (min init y)
    refine ⟨le_trans h1 (Nat.min_le_left _ _), fun x hx => ?_⟩
    rcases List.mem_cons.1 hx with e | hx
    · subst e; exact le_trans h1 (Nat.min_le_right _ _)
    · exact h2 x hx

/-- A lower bound of the start value and of every element is below the fold of
`min`. -/
theorem le_foldl_min (l : List Nat) (lo : Nat) : ∀ init : Nat, lo ≤ init →
    (∀ x ∈ l, lo ≤ x) → lo ≤ l.foldl min init := by
  induction l with
  | nil => intro init h _; exact h
  | cons y l ih =>
    intro init h hl
    exact ih (min init y) (Nat.le_min.2 ⟨h, hl y (by simp)⟩) (fun x hx => hl x (by simp [hx]))

/-- Every element is below the fold of `max`. -/
theorem le_foldl_max (l : List Nat) : ∀ init : Nat,
    init ≤ l.foldl max init ∧ ∀ x ∈ l, x ≤ l.foldl max init := by
  induction l with
  | nil => intro init; exact ⟨le_refl _, fun x hx => by simp at hx⟩
  | cons y l ih =>
    intro init
    obtain ⟨h1, h2⟩ := ih (max init y)
    refine ⟨le_trans (Nat.le_max_left _ _) h1, fun x hx => ?_⟩
    rcases List.mem_cons.1 hx with e | hx
    · subst e; exact le_trans (Nat.le_max_right _ _) h1
    · exact h2 x hx

namespace AverageN

/-- A sample held in a cell is one of the stored samples. -/
theorem mem_stored_of_cell (a : AverageN) (j x : Nat) (h : a.m_begin[j]? = some (some x)) :
    x ∈ a.stored := by
  unfold stored
  rw [List.mem_filterMap]
  exact ⟨some x, List.getElem?_mem h, rfl⟩

/-- Every stored sample is held in a cell. -/
theorem cell_of_mem_stored (a : AverageN) (x : Nat) (h : x ∈ a.stored) :
    ∃ j, j < a.m_begin.length ∧ a.m_begin[j]? = some (some x) := by
  unfold stored at h
  rw [List.mem_filterMap] at h
  obtain ⟨c, hc, e⟩ := h
  simp only [id] at e
  subst e
  obtain ⟨j, hj, e⟩ := List.getElem_of_mem hc
  exact ⟨j, hj, by rw [List.getElem?_eq_getElem hj, e]⟩

/-- Every sample of the window is stored in the buffer. -/
theorem Abs.window_subset_stored {a : AverageN} {vs : List Nat} (h : Abs a vs) :
    ∀ x ∈ window a.N vs, x ∈ a.stored := by
  intro x hx
  unfold window at hx
  obtain ⟨i, hi, e⟩ := List.getElem_of_mem hx
  rw [List.getElem_drop] at e
  rw [List.length_drop] at hi
  have hlt : vs.length - a.N + i < vs.length := by omega
  have hc := h.cells (vs.length - a.N + i) (by omega) (Or.inl hlt)
  rw [List.getElem?_eq_getElem hlt, e] at hc
  exact mem_stored_of_cell a _ x hc

/-- When `255 * N < 2^32`, the mean of a node with at least one sample lies
between the minimum and the maximum of the stored samples. -/
theorem Abs.mean_between {a : AverageN} {vs : List Nat} (h : Abs a vs)
    (hN : 255 * a.N < 4294967296) (hcount : 1 ≤ a.m_nValues) :
    a.min_stored ≤ a.m_value ∧ a.m_value ≤ a.max_stored := by
  have hm := (h.mean_exact hN).1
  have hl : (window a.N vs).length = min vs.length a.N := by
    unfold window; simp; omega
  have hc : 1 ≤ min vs.length a.N := by rw [← h.cnt]; exact hcount
  have hlo : ∀ x ∈ window a.N vs, a.min_stored ≤ x :=
    fun x hx => (foldl_min_le a.stored 255).2 x (h.window_subset_stored x hx)
  have hhi : ∀ x ∈ window a.N vs, x ≤ a.max_stored :=
    fun x hx => (le_foldl_max a.stored 0).2 x (h.window_subset_stored x hx)
  have h1 := List.card_nsmul_le_sum _ _ hlo
  have h2 := List.sum_le_card_nsmul _ _ hhi
  rw [hl, smul_eq_mul] at h1 h2
  rw [hm]
  constructor
  · rw [Nat.le_div_iff_mul_le (by omega)]
    rw [Nat.mul_comm]; exact h1
  · exact Nat.div_le_of_le_mul h2

end AverageN

/-- C17 (as amended): for every `N` with `1 ≤ N < 2^32`, in every state of an
`AverageN<N>` reached from the empty node by calls with 8-bit arguments and
holding at least one sample, the stored 32-bit mean is at most 255, so the
narrowing to `uint8_t` in `value()` and when the mean is handed to the dependant
does not change it; if moreover `255 * N < 2^32`, the mean lies between the
minimum and the maximum of the stored samples. -/
theorem C17_no_narrowing_loss (N : Nat) (hN : 1 ≤ N) (hcap : N < 4294967296)
    (dep : Average) (cs : List Call) (hcs : ∀ c ∈ cs, c.arg < 256) (t : Average)
    (ht : t = calls (averageN (AverageN.init N) dep) cs) (hcount : 1 ≤ t.self.m_nValues) :
    t.self.m_value ≤ 255 ∧ t.value = t.self.m_value ∧
    to_uint8 t.self.m_value = t.self.m_value ∧
    (255 * N < 4294967296 →
      t.self.min_stored ≤ t.self.m_value ∧ t.self.m_value ≤ t.self.max_stored) := by
  obtain ⟨a, d, vs, e, habs, _, hn⟩ := reachable_rep N hN hcap dep cs hcs
  rw [← ht] at e
  subst e
  change 1 ≤ a.m_nValues at hcount
  have hB : ∀ x ∈ vs, x ≤ 255 := fun x hx => by have := habs.byte x hx; omega
  have hle : a.m_value ≤ 255 := habs.mean_le hB
  have hnar : to_uint8 a.m_value = a.m_value := Nat.mod_eq_of_lt (by omega)
  exact ⟨hle, hnar, hnar, fun hsmall => habs.mean_between (by rw [hn]; exact hsmall) hcount⟩

/-- The node of capacity `n` after `n` equal samples `c`: it holds samples, its
mean is computed from the 32-bit sum, and the minimum of its stored samples is
`c`. -/
theorem const_stream_min (n c : Nat) (h1 : 1 ≤ n) (h2 : n < 4294967296) (hc : c < 256)
    (dep : Average) :
    1 ≤ (calls (averageN (AverageN.init n) dep)
      (List.replicate n (Call.add_value c))).self.m_nValues ∧
    (calls (averageN (AverageN.init n) dep)
      (List.replicate n (Call.add_value c))).self.m_value = (n * c) % 4294967296 / n ∧
    (calls (averageN (AverageN.init n) dep)
      (List.replicate n (Call.add_value c))).self.min_stored = c := by
  obtain ⟨a, d, he, ha, hn, hw⟩ := const_stream_node n c h1 h2 hc dep
  rw [he]
  show 1 ≤ a.m_nValues ∧ a.m_value = _ ∧ a.min_stored = c
  have hcnt : a.m_nValues = n := by rw [ha.cnt, hn, List.length_replicate, Nat.min_self]
  refine ⟨by omega, by rw [ha.mean, ha.sum, hcnt, hn, hw], ?_⟩
  apply Nat.le_antisymm
  · have hmem : c ∈ window a.N (List.replicate n c) := by
      unfold window
      rw [hn, List.length_replicate, Nat.sub_self, List.drop_zero]
      exact List.mem_replicate.2 ⟨by omega, rfl⟩
    exact (foldl_min_le a.stored 255).2 c (ha.window_subset_stored c hmem)
  · apply le_foldl_min _ _ _ (by omega)
    intro x hx
    obtain ⟨j, hj, hcell⟩ := a.cell_of_mem_stored x hx
    rw [ha.len, hn] at hj
    have := ha.cells j (by rw [List.length_replicate, hn]; omega)
      (Or.inl (by rw [List.length_replicate]; exact hj))
    rw [hn, Nat.mod_eq_of_lt hj, hcell, List.getElem?_replicate] at this
    simp only [hj, if_true, Option.some.injEq] at this
    omega

/-- Witness for C17: capacity 3 and the calls `add_value(10)`, `add_value(20)`,
`update_value(30)`, `add_value(40)`. -/
theorem C17_no_narrowing_loss_witness :
    (1 ≤ 3 ∧ 3 < 4294967296 ∧
      (∀ c ∈ [Call.add_value 10, Call.add_value 20, Call.update_value 30, Call.add_value 40],
        c.arg < 256) ∧
      1 ≤ (calls (averageN (AverageN.init 3) null)
        [Call.add_value 10, Call.add_value 20, Call.update_value 30,
          Call.add_value 40]).self.m_nValues) ∧
    (calls (averageN (AverageN.init 3) null)
      [Call.add_value 10, Call.add_value 20, Call.update_value 30,
        Call.add_value 40]).self.m_value ≤ 255 :=
  have hc : 1 ≤ (calls (averageN (AverageN.init 3) null)
      [Call.add_value 10, Call.add_value 20, Call.update_value 30,
        Call.add_value 40]).self.m_nValues := by
    simp [calls, call, add_value_averageN, update_value_averageN, AverageN.add_value,
      AverageN.update_value, AverageN.init, AverageN.next, AverageN.prev, AverageN.deref,
      add32, sub32, to_uint8, self, add_value, update_value]
  ⟨⟨by decide, by decide, by decide, hc⟩,
    (C17_no_narrowing_loss 3 (by decide) (by decide) null
      [Call.add_value 10, Call.add_value 20, Call.update_value 30, Call.add_value 40]
      (by decide) _ rfl hc).1⟩

/-- Counterexample to C17 as stated (every `N ≥ 1`): the `AverageN<N>` with
`N = 16843010` that received `N` times `add_value(255)` holds samples, the
minimum of its stored samples is 255, and its stored mean is 0. -/
theorem C17_counterexample :
    1 ≤ (calls (averageN (AverageN.init 16843010) null)
      (List.replicate 16843010 (Call.add_value 255))).self.m_nValues ∧
    (calls (averageN (AverageN.init 16843010) null)
      (List.replicate 16843010 (Call.add_value 255))).self.m_value = 0 ∧
    (calls (averageN (AverageN.init 16843010) null)
      (List.replicate 16843010 (Call.add_value 255))).self.min_stored = 255 :=
  have h := const_stream_min 16843010 255 (by norm_num) (by norm_num) (by norm_num) null
  ⟨h.1, h.2.1.trans (by norm_num), h.2.2⟩

end maxscale

namespace maxscale
open Average

namespace AverageN

/-- Two nodes with the same fields are equal. -/
theorem eq_of_fields (a b : AverageN) (h1 : a.N = b.N) (h2 : a.m_begin = b.m_begin)
    (h3 : a.m_i = b.m_i) (h4 : a.m_sum = b.m_sum) (h5 : a.m_nValues = b.m_nValues)
    (h6 : a.m_value = b.m_value) : a = b := by
  cases a; cases b; simp_all

/-- In a buffer of the same capacity `prev` undoes `next`. -/
theorem prev_next (a b : AverageN) (hN : b.N = a.N) (i : Nat) :
    b.prev (a.next i) = i := by
  unfold prev next
  simp only [hN]
  split <;> split <;> omega

/-- After `add_value` the count of a node that represents a sequence is not
zero. -/
theorem Abs.count_after_add_value {a : AverageN} {vs : List Nat} (h : Abs a vs) (v : Nat) :
    (a.add_value v).m_nValues ≠ 0 := (h.add_value_safe_of v).2.2.2

end AverageN

/-- Narrowing to `uint8_t` gives an 8-bit value. -/
theorem to_uint8_lt (x : Nat) : to_uint8 x < 256 := Nat.mod_lt _ (by norm_num)

/-- A chain of freshly constructed averages is bounded by any `B`. -/
theorem Bounded_of_Fresh (B : Nat) (t : Average) : Fresh t → Bounded B t := by
  induction t with
  | null => intro _; trivial
  | average1 x d ih => intro h; exact ⟨by rw [h.1]; exact Nat.zero_le _, ih h.2⟩
  | averageN a d ih =>
    intro h
    obtain ⟨⟨N, h1, h2, e⟩, hd⟩ := h
    subst e
    exact ⟨⟨[], by simp, AverageN.Abs.of_init N h1 h2⟩, ih hd⟩

/-- Calls with arguments of at most `B` keep every value on the chain at most
`B`. -/
theorem Bounded_calls (B : Nat) (hB : B ≤ 255) (cs : List Call) (hcs : ∀ c ∈ cs, c.arg ≤ B) :
    ∀ t : Average, Bounded B t → Bounded B (calls t cs) := by
  induction cs with
  | nil => intro t h; exact h
  | cons c cs ih =>
    intro t h
    have hc : c.arg ≤ B := hcs c (by simp)
    have hrest : ∀ c ∈ cs, c.arg ≤ B := fun x hx => hcs x (by simp [hx])
    cases c with
    | add_value v => exact ih hrest _ (Bounded_step B hB t h v hc).1
    | update_value v => exact ih hrest _ (Bounded_step B hB t h v hc).2

end maxscale

namespace maxscale
open Average

/-- The result of `add_value` on an `AverageN<N>` without dependant. -/
theorem add_value_last (h : AverageN) (u : Nat) :
    (add_value (averageN h null) u).1 = averageN (h.add_value u) null := by
  rw [add_value_averageN]
  split <;> simp [add_value, update_value]

/-- The result of `update_value` on an `AverageN<N>` without dependant. -/
theorem update_value_last (h : AverageN) (u : Nat) :
    update_value (averageN h null) u
      = averageN (if h.m_nValues = 0 then h.add_value u else h.update_value u) null := by
  rw [update_value_averageN]
  split
  · exact add_value_last h u
  · simp [update_value]

/-- The freshly constructed tree of the tracker has received no load. -/
theorem Levels_fresh_tree : WorkerLoad.Levels WorkerLoad.fresh_tree [] :=
  ⟨0, AverageN.init 60, AverageN.init 60, [], rfl,
    AverageN.Abs.of_init 60 (by norm_num) (by norm_num), rfl,
    AverageN.Abs.of_init 60 (by norm_num) (by norm_num), rfl, by simp, by simp⟩

/-- One more load on the three-level tree. -/
theorem Levels_add_value (t : Average) (ms : List Nat) (hl : WorkerLoad.Levels t ms)
    (v : Nat) (hv : v < 256) : WorkerLoad.Levels (add_value t v).1 (ms ++ [v]) := by
  obtain ⟨x, m, h, hs, e, hm, hmN, hh, hhN, hlen, hlast⟩ := hl
  subst e
  have hm' := hm.after_add_value hv
  have hcur := hm'.cur
  rw [AverageN.add_value_N, hmN, List.length_append, List.length_singleton] at hcur
  have hu := to_uint8_lt (m.add_value v).m_value
  have hlen' : (ms ++ [v]).length = ms.length + 1 := by simp
  have hnew : (if (ms ++ [v]).length = 0 then 0 else (ms ++ [v]).length / 60 + 1)
      = (ms.length + 1) / 60 + 1 := by rw [hlen', if_neg (by omega)]
  have hold : hs.length = 0 ∧ ms.length = 0 ∨ hs.length = ms.length / 60 + 1 ∧ 1 ≤ ms.length := by
    by_cases hk0 : ms.length = 0
    · rw [if_pos hk0] at hlen; exact Or.inl ⟨hlen, hk0⟩
    · rw [if_neg hk0] at hlen; exact Or.inr ⟨hlen, by omega⟩
  rw [add_value_average1, add_value_averageN]
  by_cases h0 : (m.add_value v).m_i = 0
  · rw [if_pos h0, add_value_last]
    rw [h0] at hcur
    refine ⟨v, m.add_value v, h.add_value (to_uint8 (m.add_value v).m_value),
      hs ++ [to_uint8 (m.add_value v).m_value], rfl, hm', by rw [AverageN.add_value_N, hmN],
      hh.after_add_value hu, by rw [AverageN.add_value_N, hhN], ?_, fun _ => by simp⟩
    rw [hnew, List.length_append, List.length_singleton]
    omega
  · rw [if_neg h0, update_value_last]
    have hk : (ms.length + 1) % 60 ≠ 0 := fun e => h0 (hcur.trans e)
    by_cases hz : h.m_nValues = 0
    · rw [if_pos hz]
      have hnil := hh.eq_nil hz
      subst hnil
      have hk0 : ms.length = 0 := by
        rw [List.length_nil] at hold
        omega
      refine ⟨v, m.add_value v, h.add_value (to_uint8 (m.add_value v).m_value),
        [] ++ [to_uint8 (m.add_value v).m_value], rfl, hm', by rw [AverageN.add_value_N, hmN],
        hh.after_add_value hu, by rw [AverageN.add_value_N, hhN], ?_, fun _ => by simp⟩
      rw [hnew, hk0]
      rfl
    · rw [if_neg hz]
      have hne := hh.ne_nil hz
      rcases List.eq_nil_or_concat hs with e0 | ⟨ini, y, e0⟩
      · exact absurd e0 hne
      rw [List.concat_eq_append] at e0
      subst e0
      refine ⟨v, m.add_value v, h.update_value (to_uint8 (m.add_value v).m_value),
        ini ++ [to_uint8 (m.add_value v).m_value], rfl, hm', by rw [AverageN.add_value_N, hmN],
        hh.after_update_value hu, hhN, ?_, fun _ => by simp⟩
      rw [hnew, List.length_append, List.length_singleton]
      rw [List.length_append, List.length_singleton] at hold
      omega

/-- A sequence of loads on the three-level tree. -/
theorem Levels_add_values (vs : List Nat) (hvs : ∀ v ∈ vs, v < 256) :
    ∀ (t : Average) (ms : List Nat), WorkerLoad.Levels t ms →
      WorkerLoad.Levels (add_values t vs) (ms ++ vs) := by
  induction vs with
  | nil => intro t ms h; simpa [add_values] using h
  | cons v vs ih =>
    intro t ms h
    have h1 := Levels_add_value t ms h v (hvs v (by simp))
    have h2 := ih (fun x hx => hvs x (by simp [hx])) _ _ h1
    simpa [add_values] using h2

/-- C14: in the freshly constructed tracker, after `k ≥ 1` calls of `add_value`
with 8-bit loads on `m_load_1_second`, the minute node holds `min 60 k` samples
and the hour node holds `min 60 (k / 60 + 1)` samples; and for `1 ≤ k ≤ 59`
`percentage(ONE_HOUR)` equals `percentage(ONE_MINUTE)`. -/
theorem C14_sample_counts (vs : List Nat) (hvs : ∀ v ∈ vs, v < 256) (hk : 1 ≤ vs.length) :
    (WorkerLoad.init.add_loads vs).m_load_1_minute.self.m_nValues = min 60 vs.length ∧
    (WorkerLoad.init.add_loads vs).m_load_1_hour.self.m_nValues
      = min 60 (vs.length / 60 + 1) ∧
    (vs.length ≤ 59 →
      (WorkerLoad.init.add_loads vs).percentage ONE_HOUR
        = (WorkerLoad.init.add_loads vs).percentage ONE_MINUTE) := by
  have hl := Levels_add_values vs hvs _ _ Levels_fresh_tree
  rw [List.nil_append] at hl
  obtain ⟨x, m, h, hs, e, hm, hmN, hh, hhN, hlen, hlast⟩ := hl
  have hroot : (WorkerLoad.init.add_loads vs).m_load_1_second
      = average1 x (averageN m (averageN h null)) := by
    rw [add_loads_m_load_1_second]; exact e
  have hmin : (WorkerLoad.init.add_loads vs).m_load_1_minute = averageN m (averageN h null) := by
    unfold WorkerLoad.m_load_1_minute; rw [hroot]; rfl
  have hhour : (WorkerLoad.init.add_loads vs).m_load_1_hour = averageN h null := by
    unfold WorkerLoad.m_load_1_hour; rw [hmin]; rfl
  rw [if_neg (by omega)] at hlen
  refine ⟨?_, ?_, fun h59 => ?_⟩
  · rw [hmin]
    show m.m_nValues = _
    rw [hm.cnt, hmN, Nat.min_comm]
  · rw [hhour]
    show h.m_nValues = _
    rw [hh.cnt, hhN, hlen, Nat.min_comm]
  · have hone : hs.length = 1 := by omega
    obtain ⟨u, rfl⟩ := List.length_eq_one.1 hone
    have hu := hlast hk
    simp only [List.getLast?_singleton, Option.some.injEq] at hu
    have hval : h.m_value = u := by
      rw [hh.mean, hh.sum, hh.cnt, hhN]
      have hb := hh.byte u (by simp)
      simp only [window, List.length_singleton, List.sum_cons, List.sum_nil]
      have e1 : (1 : Nat) - 60 = 0 := rfl
      rw [e1, List.drop_zero]
      simp only [List.sum_cons, List.sum_nil, Nat.add_zero]
      rw [Nat.mod_eq_of_lt (by omega)]
      simp
    have hp1 : (WorkerLoad.init.add_loads vs).percentage ONE_HOUR = to_uint8 h.m_value := by
      unfold WorkerLoad.percentage
      rw [if_neg (by decide), if_neg (by decide), if_pos rfl, hhour]
      rfl
    have hp2 : (WorkerLoad.init.add_loads vs).percentage ONE_MINUTE = to_uint8 m.m_value := by
      unfold WorkerLoad.percentage
      rw [if_neg (by decide), if_pos rfl, hmin]
      rfl
    rw [hp1, hp2, hval, hu]
    exact Nat.mod_eq_of_lt (to_uint8_lt _)

/-- Witness for C14: the four loads 100, 0, 57, 100. -/
theorem C14_sample_counts_witness :
    ((∀ v ∈ [100, 0, 57, 100], v < 256) ∧ 1 ≤ [100, 0, 57, 100].length) ∧
    (WorkerLoad.init.add_loads [100, 0, 57, 100]).m_load_1_minute.self.m_nValues
      = min 60 [100, 0, 57, 100].length ∧
    (WorkerLoad.init.add_loads [100, 0, 57, 100]).m_load_1_hour.self.m_nValues
      = min 60 ([100, 0, 57, 100].length / 60 + 1) ∧
    ([100, 0, 57, 100].length ≤ 59 →
      (WorkerLoad.init.add_loads [100, 0, 57, 100]).percentage ONE_HOUR
        = (WorkerLoad.init.add_loads [100, 0, 57, 100]).percentage ONE_MINUTE) :=
  ⟨⟨by decide, by decide⟩, C14_sample_counts [100, 0, 57, 100] (by decide) (by decide)⟩

end maxscale


/-! ## Calls that run to completion: unfolding, preservation, reachable states -/
namespace maxscale
open Average

namespace Average

/-- Unfolding of `add_value_defined` on the null pointer. -/
theorem add_value_defined_null (v : Nat) : add_value_defined null v = true := by
  rw [add_value_defined]

/-- Unfolding of `add_value_defined` on an `Average1`. -/
theorem add_value_defined_average1 (x : Nat) (d : Average) (v : Nat) :
    add_value_defined (average1 x d) v = add_value_defined d v := by
  rw [add_value_defined]

/-- Unfolding of `add_value_defined` on an `AverageN<N>`. -/
theorem add_value_defined_averageN (a : AverageN) (d : Average) (v : Nat) :
    add_value_defined (averageN a d) v =
      (decide ((a.add_value v).m_nValues ≠ 0) &&
        (if (a.add_value v).m_i = 0 then add_value_defined d (to_uint8 (a.add_value v).m_value)
         else update_value_defined d (to_uint8 (a.add_value v).m_value))) := by
  rw [add_value_defined]

/-- Unfolding of `update_value_defined` on the null pointer. -/
theorem update_value_defined_null (v : Nat) : update_value_defined null v = true := by
  rw [update_value_defined]

/-- Unfolding of `update_value_defined` on an `Average1`. -/
theorem update_value_defined_average1 (x : Nat) (d : Average) (v : Nat) :
    update_value_defined (average1 x d) v = update_value_defined d v := by
  rw [update_value_defined]

/-- Unfolding of `update_value_defined` on an `AverageN<N>`. -/
theorem update_value_defined_averageN (a : AverageN) (d : Average) (v : Nat) :
    update_value_defined (averageN a d) v =
      if a.m_nValues = 0 then add_value_defined (averageN a d) v
      else update_value_defined d (to_uint8 (a.update_value v).m_value) := by
  rw [update_value_defined]

/-- A call of `add_value` on an `AverageN<N>` that runs to completion divides by
a count that is not zero and makes a call on the dependant that runs to
completion. -/
theorem add_value_defined_iff (a : AverageN) (d : Average) (v : Nat) :
    add_value_defined (averageN a d) v = true ↔
      (a.add_value v).m_nValues ≠ 0 ∧
      ((a.add_value v).m_i = 0 → add_value_defined d (to_uint8 (a.add_value v).m_value) = true) ∧
      ((a.add_value v).m_i ≠ 0 →
        update_value_defined d (to_uint8 (a.add_value v).m_value) = true) := by
  rw [add_value_defined_averageN]
  by_cases h0 : (a.add_value v).m_i = 0
  · simp [h0]
  · simp [h0]

/-- Whether a call runs to completion does not depend on its argument. -/
theorem defined_arg (t : Average) : ∀ v w,
    add_value_defined t v = add_value_defined t w ∧
    update_value_defined t v = update_value_defined t w := by
  induction t with
  | null =>
    intro v w
    rw [add_value_defined_null, add_value_defined_null, update_value_defined_null,
      update_value_defined_null]
    exact ⟨rfl, rfl⟩
  | average1 x d ih =>
    intro v w
    rw [add_value_defined_average1, add_value_defined_average1, update_value_defined_average1,
      update_value_defined_average1]
    exact ih v w
  | averageN a d ih =>
    intro v w
    have hadd : add_value_defined (averageN a d) v = add_value_defined (averageN a d) w := by
      rw [add_value_defined_averageN, add_value_defined_averageN, AverageN.add_value_m_nValues,
        AverageN.add_value_m_nValues, AverageN.add_value_m_i, AverageN.add_value_m_i,
        (ih (to_uint8 (a.add_value v).m_value) (to_uint8 (a.add_value w).m_value)).1,
        (ih (to_uint8 (a.add_value v).m_value) (to_uint8 (a.add_value w).m_value)).2]
    refine ⟨hadd, ?_⟩
    rw [update_value_defined_averageN, update_value_defined_averageN, hadd,
      (ih (to_uint8 (a.update_value v).m_value) (to_uint8 (a.update_value w).m_value)).2]

/-- After a call that ran to completion, `update_value` runs to completion. -/
theorem defined_after (t : Average) : ∀ v w,
    (add_value_defined t v = true → update_value_defined (add_value t v).1 w = true) ∧
    (update_value_defined t v = true → update_value_defined (update_value t v) w = true) := by
  induction t with
  | null =>
    intro v w
    simp [add_value, update_value, update_value_defined_null]
  | average1 x d ih =>
    intro v w
    rw [add_value_defined_average1, update_value_defined_average1, add_value_average1,
      update_value_average1, update_value_defined_average1, update_value_defined_average1]
    exact ih v w
  | averageN a d ih =>
    intro v w
    have hadd : add_value_defined (averageN a d) v = true →
        update_value_defined (add_value (averageN a d) v).1 w = true := by
      intro h
      obtain ⟨hcnt, h1, h2⟩ := (add_value_defined_iff a d v).1 h
      rw [add_value_averageN]
      by_cases h0 : (a.add_value v).m_i = 0
      · rw [if_pos h0]
        simp only
        rw [update_value_defined_averageN, if_neg hcnt]
        exact (ih _ _).1 (h1 h0)
      · rw [if_neg h0]
        simp only
        rw [update_value_defined_averageN, if_neg hcnt]
        exact (ih _ _).2 (h2 h0)
    refine ⟨hadd, ?_⟩
    intro h
    rw [update_value_defined_averageN] at h
    rw [update_value_averageN]
    by_cases h0 : a.m_nValues = 0
    · rw [if_pos h0] at h ⊢
      exact hadd h
    · rw [if_neg h0] at h ⊢
      have h0' : (a.update_value v).m_nValues ≠ 0 := h0
      rw [update_value_defined_averageN, if_neg h0']
      exact (ih _ _).2 h

/-- On a chain whose nodes represent sequences every call runs to completion. -/
theorem defined_of_Bounded (B : Nat) (t : Average) : Bounded B t → ∀ v,
    add_value_defined t v = true ∧ update_value_defined t v = true := by
  induction t with
  | null => intro _ v; exact ⟨add_value_defined_null v, update_value_defined_null v⟩
  | average1 x d ih =>
    intro h v
    rw [add_value_defined_average1, update_value_defined_average1]
    exact ih h.2 v
  | averageN a d ih =>
    intro h v
    obtain ⟨⟨vs, _, habs⟩, hd⟩ := h
    have hadd : add_value_defined (averageN a d) v = true :=
      (add_value_defined_iff a d v).2
        ⟨habs.count_after_add_value v, fun _ => (ih hd _).1, fun _ => (ih hd _).2⟩
    refine ⟨hadd, ?_⟩
    rw [update_value_defined_averageN]
    split
    · exact hadd
    · exact (ih hd _).2

/-- A call of `add_value` that runs to completion returns the state and the
`bool` of `add_value`. -/
theorem try_add_value_of_defined {t : Average} {v : Nat} (h : add_value_defined t v = true) :
    try_add_value t v = some (add_value t v) := by
  rw [try_add_value, if_pos h]

/-- A call of `update_value` that runs to completion leaves the state of
`update_value`. -/
theorem try_update_value_of_defined {t : Average} {v : Nat}
    (h : update_value_defined t v = true) :
    try_update_value t v = some (update_value t v) := by
  rw [try_update_value, if_pos h]

/-- A call of `add_value` that returns runs to completion and returns the state
and the `bool` of `add_value`. -/
theorem try_add_value_some {t : Average} {v : Nat} {r : Average × Bool}
    (h : try_add_value t v = some r) : add_value_defined t v = true ∧ r = add_value t v := by
  rw [try_add_value] at h
  split at h
  · rename_i hd
    exact ⟨hd, (Option.some.inj h).symm⟩
  · exact absurd h (by simp)

/-- A call of `update_value` that returns runs to completion and leaves the
state of `update_value`. -/
theorem try_update_value_some {t s : Average} {v : Nat}
    (h : try_update_value t v = some s) : update_value_defined t v = true ∧ s = update_value t v := by
  rw [try_update_value] at h
  split at h
  · rename_i hd
    exact ⟨hd, (Option.some.inj h).symm⟩
  · exact absurd h (by simp)

/-- A call that traps: `add_value`. -/
theorem try_add_value_none {t : Average} {v : Nat} (h : add_value_defined t v = false) :
    try_add_value t v = none := by
  rw [try_add_value, if_neg (by rw [h]; simp)]

/-- A call that returns leaves the state of `call`. -/
theorem try_call_some {t s : Average} {c : Call} (h : try_call t c = some s) : s = call t c := by
  cases c with
  | add_value v =>
    simp only [try_call, Option.map_eq_some'] at h
    obtain ⟨r, hr, e⟩ := h
    rw [← e, (try_add_value_some hr).2]; rfl
  | update_value v => exact (try_update_value_some h).2

/-- A sequence of calls that all return leaves the state of `calls`. -/
theorem try_calls_some (cs : List Call) : ∀ {t s : Average}, try_calls t cs = some s →
    s = calls t cs := by
  induction cs with
  | nil => intro t s h; exact (Option.some.inj h).symm
  | cons c cs ih =>
    intro t s h
    simp only [try_calls, Option.bind_eq_some] at h
    obtain ⟨t1, h1, h2⟩ := h
    rw [ih h2, try_call_some h1]; rfl

/-- A sequence of calls extended by one call. -/
theorem try_calls_append (cs : List Call) (c : Call) : ∀ t : Average,
    try_calls t (cs ++ [c]) = (try_calls t cs).bind (fun s => try_call s c) := by
  induction cs with
  | nil =>
    intro t
    simp [try_calls]
  | cons x cs ih =>
    intro t
    simp only [List.cons_append, try_calls]
    cases try_call t x with
    | none => rfl
    | some t1 => simp only [Option.some_bind]; exact ih t1

end Average

/-- On a chain whose nodes represent sequences every call returns. -/
theorem try_call_of_Bounded (B : Nat) (t : Average) (h : Bounded B t) (c : Call) :
    try_call t c = some (call t c) := by
  cases c with
  | add_value v =>
    simp only [try_call, try_add_value_of_defined (defined_of_Bounded B t h v).1]; rfl
  | update_value v =>
    simp only [try_call, try_update_value_of_defined (defined_of_Bounded B t h v).2]; rfl

/-- On a chain whose nodes represent sequences every sequence of calls with
arguments of at most `B` runs to completion. -/
theorem try_calls_of_Bounded (B : Nat) (hB : B ≤ 255) (cs : List Call)
    (hcs : ∀ c ∈ cs, c.arg ≤ B) : ∀ t : Average, Bounded B t →
    try_calls t cs = some (calls t cs) := by
  induction cs with
  | nil => intro t _; rfl
  | cons c cs ih =>
    intro t h
    have hc : c.arg ≤ B := hcs c (by simp)
    have hrest : ∀ c ∈ cs, c.arg ≤ B := fun x hx => hcs x (by simp [hx])
    have hstep : Bounded B (call t c) := by
      cases c with
      | add_value v => exact (Bounded_step B hB t h v hc).1
      | update_value v => exact (Bounded_step B hB t h v hc).2
    simp only [try_calls, try_call_of_Bounded B t h c, Option.some_bind, ih hrest _ hstep]
    rfl

end maxscale


/-! ## Absorption over the whole chain -/

namespace maxscale
open Average

namespace AverageN

/-- The freshly constructed node of a capacity `N ≥ 1` has `N` cells and its
cursor at the first of them. -/
theorem Shaped.init_shaped (N : Nat) (hN : 1 ≤ N) : (AverageN.init N).Shaped :=
  ⟨by simp [AverageN.init], by simp only [AverageN.init]; omega⟩

/-- The node-level `add_value` keeps the buffer at `N` cells and the cursor inside
it. -/
theorem Shaped.add_value_shaped {a : AverageN} (h : a.Shaped) (v : Nat) :
    (a.add_value v).Shaped := by
  obtain ⟨h1, h2⟩ := h
  refine ⟨by rw [add_value_m_begin, add_value_N, List.length_set]; exact h1, ?_⟩
  rw [add_value_m_i, add_value_N]
  unfold next
  simp only
  split <;> omega

/-- The node-level `update_value` keeps the buffer at `N` cells and the cursor
inside it. -/
theorem Shaped.update_value_shaped {a : AverageN} (h : a.Shaped) (v : Nat) :
    (a.update_value v).Shaped := by
  obtain ⟨h1, h2⟩ := h
  exact ⟨by rw [update_value_m_begin, update_value_N, List.length_set]; exact h1, h2⟩

/-- On one node, `add_value(v)` followed by `update_value(w)` is `add_value(w)`. -/
theorem Shaped.add_then_update {a : AverageN} (h : a.Shaped) (v w : Nat) :
    (a.add_value v).update_value w = a.add_value w := by
  have hcur : a.m_i < a.m_begin.length := by rw [h.1]; exact h.2
  have hp : (a.add_value v).prev (a.add_value v).m_i = a.m_i := by
    rw [add_value_m_i]; exact prev_next a _ (add_value_N a v) _
  have hsum : ((a.add_value v).update_value w).m_sum = (a.add_value w).m_sum := by
    rw [update_value_m_sum, hp, add_value_m_begin, List.set_set, List.getElem?_set_self hcur]
    unfold deref
    rw [add_value_m_begin, List.getElem?_set_self hcur, add_value_m_sum, add_value_m_sum,
      List.getElem?_set_self hcur, List.getElem?_set_self hcur]
    simp only [Option.getD_some]
    unfold add32 sub32
    omega
  have hcnt : ((a.add_value v).update_value w).m_nValues = (a.add_value w).m_nValues := by
    rw [update_value_m_nValues, add_value_m_nValues, add_value_m_nValues]
  apply eq_of_fields
  · rw [update_value_N, add_value_N, add_value_N]
  · rw [update_value_m_begin, hp, add_value_m_begin, add_value_m_begin, List.set_set]
  · rw [update_value_m_i, add_value_m_i, add_value_m_i]
  · exact hsum
  · exact hcnt
  · rw [update_value_m_value, add_value_m_value, hsum, hcnt]

/-- On one node, `update_value(v)` followed by `update_value(w)` is
`update_value(w)`. -/
theorem Shaped.update_then_update {a : AverageN} (h : a.Shaped) (v w : Nat) :
    (a.update_value v).update_value w = a.update_value w := by
  have hplt : a.prev a.m_i < a.m_begin.length := by
    rw [h.1]
    have := h.2
    unfold prev
    split <;> omega
  have hp : (a.update_value v).prev (a.update_value v).m_i = a.prev a.m_i := rfl
  have hsum : ((a.update_value v).update_value w).m_sum = (a.update_value w).m_sum := by
    rw [update_value_m_sum, hp, update_value_m_begin, List.set_set,
      List.getElem?_set_self hplt]
    unfold deref
    rw [update_value_m_begin, List.getElem?_set_self hplt, update_value_m_sum,
      update_value_m_sum, List.getElem?_set_self hplt, List.getElem?_set_self hplt]
    simp only [Option.getD_some]
    unfold add32 sub32
    omega
  apply eq_of_fields
  · rfl
  · rw [update_value_m_begin, hp, update_value_m_begin, update_value_m_begin, List.set_set]
  · rfl
  · exact hsum
  · rfl
  · rw [update_value_m_value, update_value_m_value, hsum]; rfl

end AverageN

/-- A chain of freshly constructed averages has every buffer at its capacity and
every cursor inside its buffer. -/
theorem Shaped_of_Constructed (t : Average) : Constructed t → Shaped t := by
  induction t with
  | null => intro _; trivial
  | average1 x d ih => intro h; exact ih h.2
  | averageN a d ih =>
    intro h
    obtain ⟨⟨N, h1, e⟩, hd⟩ := h
    subst e
    exact ⟨AverageN.Shaped.init_shaped N h1, ih hd⟩

/-- Both `add_value` and `update_value` keep every buffer at its capacity and every
cursor inside its buffer. -/
theorem Shaped_step (t : Average) : Shaped t → ∀ v,
    Shaped (add_value t v).1 ∧ Shaped (update_value t v) := by
  induction t with
  | null => intro _ v; rw [add_value, update_value]; exact ⟨trivial, trivial⟩
  | average1 x d ih =>
    intro h v
    rw [add_value_average1, update_value_average1]
    exact ih h v
  | averageN a d ih =>
    intro h v
    obtain ⟨ha, hd⟩ := h
    have hadd : Shaped (add_value (averageN a d) v).1 := by
      rw [add_value_averageN]
      split
      · exact ⟨ha.add_value_shaped v, (ih hd _).1⟩
      · exact ⟨ha.add_value_shaped v, (ih hd _).2⟩
    refine ⟨hadd, ?_⟩
    rw [update_value_averageN]
    split
    · exact hadd
    · exact ⟨ha.update_value_shaped v, (ih hd _).2⟩

/-- Every sequence of calls keeps every buffer at its capacity and every cursor
inside its buffer. -/
theorem Shaped_calls (cs : List Call) : ∀ t : Average, Shaped t → Shaped (calls t cs) := by
  induction cs with
  | nil => intro t h; exact h
  | cons c cs ih =>
    intro t h
    cases c with
    | add_value v => exact ih _ (Shaped_step t h v).1
    | update_value v => exact ih _ (Shaped_step t h v).2

/-- Absorption on a chain for calls that run to completion: `add_value(v)` then
`update_value(w)` leaves the state of `add_value(w)`, and `update_value(v)` then
`update_value(w)` the state of `update_value(w)`. -/
theorem absorb_defined (t : Average) : Shaped t → ∀ v w,
    (add_value_defined t v = true →
      update_value (add_value t v).1 w = (add_value t w).1) ∧
    (update_value_defined t v = true →
      update_value (update_value t v) w = update_value t w) := by
  induction t with
  | null => intro _ v w; simp [add_value, update_value]
  | average1 x d ih =>
    intro h v w
    rw [add_value_defined_average1, update_value_defined_average1]
    refine ⟨fun hd => ?_, fun hd => ?_⟩
    · rw [add_value_average1, add_value_average1, update_value_average1, (ih h v w).1 hd]
    · rw [update_value_average1, update_value_average1, update_value_average1, (ih h v w).2 hd]
  | averageN a d ih =>
    intro h v w
    obtain ⟨ha, hd⟩ := h
    have hadd : add_value_defined (averageN a d) v = true →
        update_value (add_value (averageN a d) v).1 w = (add_value (averageN a d) w).1 := by
      intro hdef
      obtain ⟨hcnt, h1, h2⟩ := (add_value_defined_iff a d v).1 hdef
      have hnode := ha.add_then_update v w
      have hi : (a.add_value v).m_i = (a.add_value w).m_i := by
        rw [AverageN.add_value_m_i, AverageN.add_value_m_i]
      rw [add_value_averageN, add_value_averageN]
      by_cases h0 : (a.add_value w).m_i = 0
      · rw [if_pos h0, if_pos (hi.trans h0)]
        simp only
        rw [update_value_averageN, if_neg hcnt, hnode, (ih hd _ _).1 (h1 (hi.trans h0))]
      · rw [if_neg h0, if_neg (fun e => h0 (hi.symm.trans e))]
        simp only
        rw [update_value_averageN, if_neg hcnt, hnode,
          (ih hd _ _).2 (h2 (fun e => h0 (hi.symm.trans e)))]
    refine ⟨hadd, ?_⟩
    intro hdef
    rw [update_value_defined_averageN] at hdef
    by_cases h0 : a.m_nValues = 0
    · rw [if_pos h0] at hdef
      have e1 : update_value (averageN a d) v = (add_value (averageN a d) v).1 := by
        rw [update_value_averageN, if_pos h0]
      have e2 : update_value (averageN a d) w = (add_value (averageN a d) w).1 := by
        rw [update_value_averageN, if_pos h0]
      rw [e1, e2, hadd hdef]
    · rw [if_neg h0] at hdef
      have hnode := ha.update_then_update v w
      have h0' : (a.update_value v).m_nValues ≠ 0 := h0
      rw [update_value_averageN a d v, if_neg h0, update_value_averageN a d w, if_neg h0,
        update_value_averageN, if_neg h0', hnode, (ih hd _ _).2 hdef]

/-- Absorption for the calls as fallible functions: on a chain with every buffer
at its capacity, `add_value(v)` then `update_value(w)` returns what `add_value(w)`
returns, and `update_value(v)` then `update_value(w)` what `update_value(w)`
returns; in particular either both trap or neither does. -/
theorem try_absorb (t : Average) (h : Shaped t) (v w : Nat) :
    (try_add_value t v).bind (fun r => try_update_value r.1 w)
      = (try_add_value t w).map Prod.fst ∧
    (try_update_value t v).bind (fun s => try_update_value s w) = try_update_value t w := by
  constructor
  · by_cases hd : add_value_defined t v = true
    · have hw : add_value_defined t w = true := ((defined_arg t v w).1).symm.trans hd
      rw [try_add_value_of_defined hd, try_add_value_of_defined hw, Option.some_bind,
        Option.map_some', try_update_value_of_defined ((defined_after t v w).1 hd),
        (absorb_defined t h v w).1 hd]
    · have hw : ¬ add_value_defined t w = true := fun e => hd (((defined_arg t v w).1).trans e)
      rw [try_add_value, if_neg hd, try_add_value, if_neg hw]
      rfl
  · by_cases hd : update_value_defined t v = true
    · have hw : update_value_defined t w = true := ((defined_arg t v w).2).symm.trans hd
      rw [try_update_value_of_defined hd, try_update_value_of_defined hw, Option.some_bind,
        try_update_value_of_defined ((defined_after t v w).2 hd),
        (absorb_defined t h v w).2 hd]
    · have hw : ¬ update_value_defined t w = true :=
        fun e => hd (((defined_arg t v w).2).trans e)
      rw [try_update_value, if_neg hd, try_update_value, if_neg hw]
      rfl

/-- C13: for every chain of averages (`Average1` or `AverageN<N>` nodes of any
capacities `N ≥ 1`) in any state `t` reached from the freshly constructed chain by
calls of `add_value` and `update_value` with 8-bit arguments on its first node,
each of which ran to completion, and all 8-bit `v`, `w`: `add_value(v)` followed
by `update_value(w)` leaves the first node and every dependant in exactly the
state in which `add_value(w)` alone leaves them, and `update_value(v)` followed by
`update_value(w)` in exactly the state of `update_value(w)` alone.  The calls are
the fallible ones: the two sides agree also in whether they run to completion. -/
theorem C13_absorption (t0 : Average) (cs : List Call) (t : Average) (v w : Nat) :
    Constructed t0 → (∀ c ∈ cs, c.arg < 256) → try_calls t0 cs = some t →
    v < 256 → w < 256 →
    ((try_add_value t v).bind (fun r => try_update_value r.1 w)
        = (try_add_value t w).map Prod.fst ∧
      (try_update_value t v).bind (fun s => try_update_value s w) = try_update_value t w) := by
  intro h0 _ ht _ _
  rw [try_calls_some cs ht]
  exact try_absorb _ (Shaped_calls cs t0 (Shaped_of_Constructed t0 h0)) v w

/-- Witness for C13: the three-level tree of the tracker after the calls
`add_value(10)` and `update_value(20)`, with `v = 30` and `w = 40`; all the calls
run to completion. -/
theorem C13_absorption_witness :
    (Constructed WorkerLoad.fresh_tree ∧
      (∀ c ∈ [Call.add_value 10, Call.update_value 20], c.arg < 256) ∧
      try_calls WorkerLoad.fresh_tree [Call.add_value 10, Call.update_value 20]
        = some (calls WorkerLoad.fresh_tree [Call.add_value 10, Call.update_value 20]) ∧
      30 < 256 ∧ 40 < 256) ∧
    (try_add_value (calls WorkerLoad.fresh_tree [Call.add_value 10, Call.update_value 20]) 40).map
        Prod.fst
      = some (add_value (calls WorkerLoad.fresh_tree
          [Call.add_value 10, Call.update_value 20]) 40).1 ∧
    ((try_add_value (calls WorkerLoad.fresh_tree
          [Call.add_value 10, Call.update_value 20]) 30).bind
        (fun r => try_update_value r.1 40)
      = (try_add_value (calls WorkerLoad.fresh_tree
          [Call.add_value 10, Call.update_value 20]) 40).map Prod.fst ∧
    (try_update_value (calls WorkerLoad.fresh_tree
          [Call.add_value 10, Call.update_value 20]) 30).bind
        (fun s => try_update_value s 40)
      = try_update_value (calls WorkerLoad.fresh_tree
          [Call.add_value 10, Call.update_value 20]) 40) :=
  have hc : Constructed WorkerLoad.fresh_tree :=
    ⟨rfl, ⟨60, by decide, rfl⟩, ⟨60, by decide, rfl⟩, trivial⟩
  have hb : Bounded 255 (calls WorkerLoad.fresh_tree [Call.add_value 10, Call.update_value 20]) :=
    Bounded_calls 255 (le_refl _) _ (by decide) _ (Bounded_fresh_tree 255)
  have ht := try_calls_of_Bounded 255 (le_refl _) [Call.add_value 10, Call.update_value 20]
    (by decide) WorkerLoad.fresh_tree (Bounded_fresh_tree 255)
  ⟨⟨hc, by decide, ht, by decide, by decide⟩,
    by rw [try_add_value_of_defined (defined_of_Bounded 255 _ hb 40).1]; rfl,
    C13_absorption WorkerLoad.fresh_tree [Call.add_value 10, Call.update_value 20] _ 30 40
      hc (by decide) ht (by decide) (by decide)⟩

end maxscale


/-! ## Full cycles and the protocol between a node and its dependant -/

namespace maxscale
open Average

/-- A sequence of `add_value` calls as a sequence of calls. -/
theorem calls_map_add_value (vs : List Nat) : ∀ t : Average,
    calls t (vs.map Call.add_value) = add_values t vs := by
  induction vs with
  | nil => intro t; rfl
  | cons v vs ih =>
    intro t
    simp only [List.map_cons, calls, add_values, List.foldl_cons] at ih ⊢
    exact ih _

/-- The node of capacity `n` with a bounded chain of dependants after `k` equal
samples, `k ≤ n` and `k < 2^32`: every call ran to completion, and the count is
`k`. -/
theorem const_stream_run (n c : Nat) (dep : Average) (hdep : Bounded 255 dep) :
    ∀ k, k ≤ n → k < 4294967296 →
      ∃ a d, try_calls (averageN (AverageN.init n) dep) (List.replicate k (Call.add_value c))
          = some (averageN a d) ∧ a.m_nValues = k ∧ a.N = n ∧ Bounded 255 d := by
  intro k
  induction k with
  | zero => intro _ _; exact ⟨AverageN.init n, dep, rfl, rfl, rfl, hdep⟩
  | succ k ih =>
    intro h1 h2
    obtain ⟨a, d, he, hcnt, hN, hd⟩ := ih (by omega) (by omega)
    have hnew : (a.add_value c).m_nValues = k + 1 := by
      rw [AverageN.add_value_m_nValues, hcnt, hN, if_neg (by omega), Nat.mod_eq_of_lt h2]
    have hdef : add_value_defined (averageN a d) c = true :=
      (add_value_defined_iff a d c).2
        ⟨by rw [hnew]; omega, fun _ => (defined_of_Bounded 255 d hd _).1,
          fun _ => (defined_of_Bounded 255 d hd _).2⟩
    have hm : to_uint8 (a.add_value c).m_value ≤ 255 := by
      have := to_uint8_lt (a.add_value c).m_value
      omega
    have hstep : ∃ d', (add_value (averageN a d) c).1 = averageN (a.add_value c) d' ∧
        Bounded 255 d' := by
      rw [add_value_averageN]
      split
      · exact ⟨_, rfl, (Bounded_step 255 (le_refl _) d hd _ hm).1⟩
      · exact ⟨_, rfl, (Bounded_step 255 (le_refl _) d hd _ hm).2⟩
    obtain ⟨d', he', hd'⟩ := hstep
    refine ⟨a.add_value c, d', ?_, hnew, by rw [AverageN.add_value_N, hN], hd'⟩
    rw [List.replicate_succ', try_calls_append, he, Option.some_bind, try_call,
      try_add_value_of_defined hdef, Option.map_some', he']

/-- On the node of capacity `n ≥ 2^32` with a bounded chain of dependants, the
first `2^32 - 1` calls of `add_value` run to completion and the next one traps:
it raises the 32-bit count from `2^32 - 1` to 0 and divides by it. -/
theorem const_stream_trap (n c v : Nat) (hn : 4294967296 ≤ n) (dep : Average)
    (hdep : Bounded 255 dep) :
    try_calls (averageN (AverageN.init n) dep) (List.replicate 4294967295 (Call.add_value c))
      = some (calls (averageN (AverageN.init n) dep)
          (List.replicate 4294967295 (Call.add_value c))) ∧
    try_add_value (calls (averageN (AverageN.init n) dep)
      (List.replicate 4294967295 (Call.add_value c))) v = none := by
  obtain ⟨a, d, he, hcnt, hN, _⟩ :=
    const_stream_run n c dep hdep 4294967295 (by omega) (by norm_num)
  have hs := try_calls_some _ he
  rw [← hs]
  refine ⟨he, try_add_value_none ?_⟩
  have hz : (a.add_value v).m_nValues = 0 := by
    rw [AverageN.add_value_m_nValues, hcnt, hN, if_neg (by omega)]
  rw [add_value_defined_averageN, hz]
  rfl

/-- C2 (as amended): `add_value` on an `AverageN<N>` in any state, whenever it
returns, returns true exactly when the cursor is back at position 0 after the
append; and for every `N` with `1 ≤ N < 2^32`, on a node that starts empty (with
any freshly constructed chain of dependants of capacities below `2^32`) and only
receives `add_value` with 8-bit samples, for every `k ≥ 1` the first `k - 1` calls
return and the `k`-th call returns, and it returns true if and only if `k` is a
multiple of `N`. -/
theorem C2_add_value_full_cycle (N : Nat) (hN : 1 ≤ N) (hcap : N < 4294967296)
    (dep : Average) (hdep : Fresh dep) :
    (∀ (a : AverageN) (d : Average) (v : Nat) (r : Average × Bool),
      try_add_value (averageN a d) v = some r → (r.2 = true ↔ r.1.self.m_i = 0)) ∧
    (∀ (vs : List Nat) (k : Nat), (∀ v ∈ vs, v < 256) → 1 ≤ k → k ≤ vs.length →
      ∃ s r,
        try_calls (averageN (AverageN.init N) dep) ((vs.take (k - 1)).map Call.add_value)
          = some s ∧
        try_add_value s (vs.getD (k - 1) 0) = some r ∧
        (r.2 = true ↔ N ∣ k)) := by
  constructor
  · intro a d v r hr
    rw [(try_add_value_some hr).2, add_value_snd, add_value_self]
    simp
  · intro vs k hvs hk1 hk2
    have h0 : Bounded 255 (averageN (AverageN.init N) dep) :=
      Bounded_of_Fresh 255 _ ⟨⟨N, hN, hcap, rfl⟩, hdep⟩
    have hargs : ∀ c ∈ (vs.take (k - 1)).map Call.add_value, c.arg ≤ 255 := by
      intro c hc
      obtain ⟨x, hx, e⟩ := List.mem_map.1 hc
      have := hvs x (List.mem_of_mem_take hx)
      rw [← e]
      show x ≤ 255
      omega
    have hb := Bounded_calls 255 (le_refl _) _ hargs _ h0
    refine ⟨_, _, try_calls_of_Bounded 255 (le_refl _) _ hargs _ h0,
      try_add_value_of_defined (defined_of_Bounded 255 _ hb _).1, ?_⟩
    rw [calls_map_add_value]
    obtain ⟨d, hd⟩ := add_values_root (vs.take (k - 1)) (AverageN.init N) dep
    have hc := foldl_add_value_cursor (vs.take (k - 1)) (AverageN.init N) 0 hN
      (by simp [AverageN.init])
    have hn := foldl_add_value_N (vs.take (k - 1)) (AverageN.init N)
    have hl : (vs.take (k - 1)).length = k - 1 := by simp; omega
    rw [hd, add_value_snd, AverageN.add_value_m_i, AverageN.next, hc, hn, hl]
    simp only [AverageN.init, Nat.zero_add, decide_eq_true_eq]
    have hs := succ_mod_eq (k - 1) N hN
    have hk : k - 1 + 1 = k := by omega
    rw [hk] at hs
    rw [Nat.dvd_iff_mod_eq_zero, hs]

/-- Witness for C2: capacity 3 without dependant. -/
theorem C2_add_value_full_cycle_witness :
    (1 ≤ 3 ∧ 3 < 4294967296 ∧ Fresh null) ∧
    (∀ (a : AverageN) (d : Average) (v : Nat) (r : Average × Bool),
      try_add_value (averageN a d) v = some r → (r.2 = true ↔ r.1.self.m_i = 0)) ∧
    (∀ (vs : List Nat) (k : Nat), (∀ v ∈ vs, v < 256) → 1 ≤ k → k ≤ vs.length →
      ∃ s r,
        try_calls (averageN (AverageN.init 3) null) ((vs.take (k - 1)).map Call.add_value)
          = some s ∧
        try_add_value s (vs.getD (k - 1) 0) = some r ∧
        (r.2 = true ↔ 3 ∣ k)) :=
  ⟨⟨by decide, by decide, trivial⟩,
    C2_add_value_full_cycle 3 (by decide) (by decide) null trivial⟩

/-- Counterexample to C2 as stated (every `N ≥ 1`): on the `AverageN<N>` with
`N = 2^32` that starts empty, the first `2^32 - 1` calls of `add_value(0)` return,
and call number `2^32`, a multiple of `N`, does not return: it raises the 32-bit
count from `2^32 - 1` to 0 and divides by it. -/
theorem C2_counterexample :
    try_calls (averageN (AverageN.init 4294967296) null)
        (List.replicate 4294967295 (Call.add_value 0))
      = some (calls (averageN (AverageN.init 4294967296) null)
          (List.replicate 4294967295 (Call.add_value 0))) ∧
    try_add_value (calls (averageN (AverageN.init 4294967296) null)
      (List.replicate 4294967295 (Call.add_value 0))) 0 = none ∧
    4294967296 ∣ 4294967295 + 1 :=
  have h := const_stream_trap 4294967296 0 0 (by norm_num) null trivial
  ⟨h.1, h.2, ⟨1, by norm_num⟩⟩

/-- C3 (as amended): for every `AverageN<N>` node with `1 ≤ N < 2^32` and a
freshly constructed chain of dependants of capacities below `2^32`, in any state
`t` reached from the empty node by calls of `add_value` and `update_value` with
8-bit arguments, and every 8-bit sample `v`: `add_value(v)` returns; with `m` the
value of the node afterwards, `m` is the newly computed mean, the quotient of the
new sum by the new count, which is not zero; if the cursor is back at position 0
the dependant afterwards is the dependant of `t` after `add_value(m)`, otherwise
it is the dependant of `t` after `update_value(m)`, and that call on the dependant
returns. -/
theorem C3_add_value_dependant_protocol (N : Nat) (hN : 1 ≤ N) (hcap : N < 4294967296)
    (dep : Average) (hdep : Fresh dep) (cs : List Call) (hcs : ∀ c ∈ cs, c.arg < 256)
    (t : Average) (ht : try_calls (averageN (AverageN.init N) dep) cs = some t) (v : Nat) :
    v < 256 →
    ∃ r, try_add_value t v = some r ∧
      r.1.self.m_nValues ≠ 0 ∧
      r.1.value = to_uint8 (r.1.self.m_sum / r.1.self.m_nValues) ∧
      (r.1.self.m_i = 0 →
        (try_add_value t.m_pDependant r.1.value).map Prod.fst = some r.1.m_pDependant) ∧
      (r.1.self.m_i ≠ 0 →
        try_update_value t.m_pDependant r.1.value = some r.1.m_pDependant) := by
  intro _
  have h0 : Bounded 255 (averageN (AverageN.init N) dep) :=
    Bounded_of_Fresh 255 _ ⟨⟨N, hN, hcap, rfl⟩, hdep⟩
  have hargs : ∀ c ∈ cs, c.arg ≤ 255 := fun c hc => by have := hcs c hc; omega
  have hb := Bounded_calls 255 (le_refl _) cs hargs _ h0
  obtain ⟨a, d, us, e, habs, _⟩ :=
    calls_abs cs hcs (AverageN.init N) dep [] (AverageN.Abs.of_init N hN hcap)
  rw [← try_calls_some cs ht] at e hb
  subst e
  have hdef := (defined_of_Bounded 255 _ hb v).1
  obtain ⟨hcnt, h1, h2⟩ := (add_value_defined_iff a d v).1 hdef
  have hval : (add_value (averageN a d) v).1.value = to_uint8 (a.add_value v).m_value := by
    obtain ⟨d', h⟩ := add_value_root a d v
    rw [h]; rfl
  refine ⟨_, try_add_value_of_defined hdef, ?_, ?_, fun hi => ?_, fun hi => ?_⟩
  · rw [add_value_self]; exact hcnt
  · rw [hval, add_value_self, AverageN.add_value_m_value]
  · rw [add_value_self] at hi
    rw [hval]
    show (try_add_value d _).map Prod.fst = _
    rw [try_add_value_of_defined (h1 hi), Option.map_some', add_value_averageN, if_pos hi]
    rfl
  · rw [add_value_self] at hi
    rw [hval]
    show try_update_value d _ = _
    rw [try_update_value_of_defined (h2 hi), add_value_averageN, if_neg hi]
    rfl

/-- Witness for C3: capacity 3 with a dependant of capacity 2, after the calls
`add_value(10)` and `update_value(20)`, and the sample 30. -/
theorem C3_add_value_dependant_protocol_witness :
    (1 ≤ 3 ∧ 3 < 4294967296 ∧ Fresh (averageN (AverageN.init 2) null) ∧
      (∀ c ∈ [Call.add_value 10, Call.update_value 20], c.arg < 256) ∧
      try_calls (averageN (AverageN.init 3) (averageN (AverageN.init 2) null))
          [Call.add_value 10, Call.update_value 20]
        = some (calls (averageN (AverageN.init 3) (averageN (AverageN.init 2) null))
          [Call.add_value 10, Call.update_value 20]) ∧
      30 < 256) ∧
    ∃ r, try_add_value (calls (averageN (AverageN.init 3) (averageN (AverageN.init 2) null))
          [Call.add_value 10, Call.update_value 20]) 30 = some r ∧
      r.1.self.m_nValues ≠ 0 ∧
      r.1.value = to_uint8 (r.1.self.m_sum / r.1.self.m_nValues) ∧
      (r.1.self.m_i = 0 →
        (try_add_value (calls (averageN (AverageN.init 3) (averageN (AverageN.init 2) null))
          [Call.add_value 10, Call.update_value 20]).m_pDependant r.1.value).map Prod.fst
          = some r.1.m_pDependant) ∧
      (r.1.self.m_i ≠ 0 →
        try_update_value (calls (averageN (AverageN.init 3) (averageN (AverageN.init 2) null))
          [Call.add_value 10, Call.update_value 20]).m_pDependant r.1.value
          = some r.1.m_pDependant) :=
  have hf : Fresh (averageN (AverageN.init 2) null) := ⟨⟨2, by decide, by decide, rfl⟩, trivial⟩
  have ht := try_calls_of_Bounded 255 (le_refl _) [Call.add_value 10, Call.update_value 20]
    (by decide) (averageN (AverageN.init 3) (averageN (AverageN.init 2) null))
    (Bounded_of_Fresh 255 _ ⟨⟨3, by decide, by decide, rfl⟩, hf⟩)
  ⟨⟨by decide, by decide, hf, by decide, ht, by decide⟩,
    C3_add_value_dependant_protocol 3 (by decide) (by decide) (averageN (AverageN.init 2) null)
      hf [Call.add_value 10, Call.update_value 20] (by decide) _ ht 30 (by decide)⟩

/-- Counterexample to C3 as stated (every Windowed(N) node): on the
`AverageN<N>` with `N = 2^32` and an `Average1` as dependant, the first
`2^32 - 1` calls of `add_value(0)` return, and in the state they leave
`add_value(0)` does not return: it raises the 32-bit count from `2^32 - 1` to 0
and divides by it, so no mean is computed and no call reaches the dependant. -/
theorem C3_counterexample :
    try_calls (averageN (AverageN.init 4294967296) (average1 0 null))
        (List.replicate 4294967295 (Call.add_value 0))
      = some (calls (averageN (AverageN.init 4294967296) (average1 0 null))
          (List.replicate 4294967295 (Call.add_value 0))) ∧
    try_add_value (calls (averageN (AverageN.init 4294967296) (average1 0 null))
      (List.replicate 4294967295 (Call.add_value 0))) 0 = none :=
  const_stream_trap 4294967296 0 0 (by norm_num) (average1 0 null) ⟨Nat.zero_le _, trivial⟩

end maxscale
